import Mathlib

set_option autoImplicit false

namespace Tenex

/-! Shallow embedding of the tenex repository's dev-orchestration code.

Strings manipulated by the JavaScript/TypeScript sources are modelled as
`List Char`; every function below is translated from a named function of the
repository (the source file and symbol are given in each doc comment). -/

/-- Whitespace characters recognized by JavaScript String.prototype.trim:
the ECMAScript WhiteSpace set (TAB, VT, FF, SP, NBSP, BOM and every
Unicode Space_Separator character: U+1680, U+2000..U+200A, U+202F, U+205F,
U+3000) together with the LineTerminator set (LF, CR, LS U+2028,
PS U+2029). -/
def isJsWs (c : Char) : Bool :=
  c = ' ' || c = '\t' || c = '\n' || c = '\r' || c = '\x0b' || c = '\x0c' ||
  c = '\u00A0' || c = '\u1680' ||
  c = '\u2000' || c = '\u2001' || c = '\u2002' || c = '\u2003' ||
  c = '\u2004' || c = '\u2005' || c = '\u2006' || c = '\u2007' ||
  c = '\u2008' || c = '\u2009' || c = '\u200A' ||
  c = '\u2028' || c = '\u2029' || c = '\u202F' || c = '\u205F' ||
  c = '\u3000' || c = '\uFEFF'

/-- JavaScript String.prototype.trim on a list of characters. -/
def trimL (s : List Char) : List Char :=
  ((s.dropWhile isJsWs).reverse.dropWhile isJsWs).reverse

/-- Strip trailing whitespace only (the right half of a trim). -/
def rstripL (s : List Char) : List Char :=
  (s.reverse.dropWhile isJsWs).reverse

/-- JavaScript String.prototype.startsWith: does `s` start with `pat`? -/
def lstarts : List Char → List Char → Bool
  | _, [] => true
  | [], _ :: _ => false
  | c :: s, p :: ps => c = p && lstarts s ps

/-- Helper for `splitLines`: prepend a character to the first piece. -/
def consHead (c : Char) : List (List Char) → List (List Char)
  | [] => [[c]]
  | l :: ls => (c :: l) :: ls

/-- JavaScript `s.split(/\r?\n/)`: split into lines at LF or CRLF
(a CR not followed by LF stays inside its line), as used by
`parseDotenv` and `upsertDotenvVar` in src/lib/dotenv.ts. -/
def splitLines : List Char → List (List Char)
  | [] => [[]]
  | '\n' :: t => [] :: splitLines t
  | '\r' :: '\n' :: t => [] :: splitLines t
  | c :: t => consHead c (splitLines t)

/-- JavaScript `lines.join('\n')`. -/
def joinLines : List (List Char) → List Char
  | [] => []
  | [l] => l
  | l :: ls => l ++ '\n' :: joinLines ls

/-- JavaScript `s.replace(/\n+$/, '\n')`: collapse a trailing run of LF
characters (when present) to exactly one LF. -/
def collapseNl (s : List Char) : List Char :=
  if s.getLast? = some '\n' then (s.reverse.dropWhile (fun c => c = '\n')).reverse ++ ['\n']
  else s

/-- The first-match-replacement loop of `upsertDotenvVar`
(src/lib/dotenv.ts, lines 29-36): replace the first line starting with
`pre` by `nl`; `none` when no line matches. -/
def replaceFirst (pre nl : List Char) : List (List Char) → Option (List (List Char))
  | [] => none
  | l :: ls =>
    if lstarts l pre then some (nl :: ls)
    else (replaceFirst pre nl ls).map (fun ls2 => l :: ls2)

/-- The line list `upsertDotenvVar` starts from (src/lib/dotenv.ts, line 26):
an empty file has no lines, otherwise split at `/\r?\n/`. -/
def upsertLinesOf (contents : List Char) : List (List Char) :=
  if contents = [] then [] else splitLines contents

/-- The append branch of `upsertDotenvVar` (src/lib/dotenv.ts, lines 37-40):
push a blank separator when the file is non-empty and its last line is
non-blank, then push the new line. -/
def appendNewLine (lines : List (List Char)) (newLine : List Char) : List (List Char) :=
  if lines ≠ [] ∧ lines.getLast? ≠ some [] then lines ++ [[], newLine]
  else lines ++ [newLine]

/-- Embedding of `upsertDotenvVar` from src/lib/dotenv.ts (lines 21-42),
on character lists. -/
def upsertDotenvVarCore (contents key value : List Char) : List Char :=
  match replaceFirst (key ++ ['=']) (key ++ '=' :: value) (upsertLinesOf contents) with
  | some lines2 => collapseNl (joinLines lines2)
  | none =>
    collapseNl (joinLines (appendNewLine (upsertLinesOf contents) (key ++ '=' :: value)))

/-- Embedding of `upsertDotenvVar` from src/lib/dotenv.ts at `String` type. -/
def upsertDotenvVar (contents key value : String) : String :=
  ⟨upsertDotenvVarCore contents.data key.data value.data⟩

/-- The quote-stripping step of `parseDotenv` (src/lib/dotenv.ts,
lines 10-15): remove one pair of surrounding double or single quotes. -/
def stripQuotes (v : List Char) : List Char :=
  if (v.head? = some '"' ∧ v.getLast? = some '"') ∨
     (v.head? = some '\'' ∧ v.getLast? = some '\'') then (v.drop 1).dropLast
  else v

/-- The per-line step of `parseDotenv` (src/lib/dotenv.ts, lines 3-17):
trim the line, skip blanks and comments, split at the first equals sign,
trim the key and value, strip surrounding quotes, keep non-empty keys. -/
def parseLine (line : List Char) : Option (List Char × List Char) :=
  let t := trimL line
  if t = [] then none
  else if t.head? = some '#' then none
  else
    match t.findIdx? (fun c => c = '=') with
    | none => none
    | some i =>
      let key := trimL (t.take i)
      let value := stripQuotes (trimL (t.drop (i + 1)))
      if key = [] then none else some (key, value)

/-- Embedding of `parseDotenv` from src/lib/dotenv.ts (lines 1-19) as the
ordered list of (key, value) assignments it records. -/
def parsePairs (contents : List Char) : List (List Char × List Char) :=
  (splitLines contents).filterMap parseLine

/-- Lookup in the record built by `parseDotenv`: later assignments overwrite
earlier ones, so the last assignment of a key wins. -/
def envLookup (ps : List (List Char × List Char)) (k : List Char) : Option (List Char) :=
  (ps.reverse.find? (fun p => p.1 = k)).map (fun p => p.2)

/-- Embedding of `parseDotenv` at `String` type: the value `parseDotenv`'s
returned record associates to a key, if any. -/
def parseDotenvGet (contents key : String) : Option String :=
  (envLookup (parsePairs contents.data) key.data).map (fun v => ⟨v⟩)

/-- Remove one trailing carriage return, if present. Joining lines with LF
and re-splitting at `/\r?\n/` erases exactly such a character from every
line but the last. -/
def dropLastCr (l : List Char) : List Char :=
  if l.getLast? = some '\r' then l.dropLast else l

/-- Drop the trailing run of blank (empty) lines. -/
def dropTrailingBlanks (L : List (List Char)) : List (List Char) :=
  (L.reverse.dropWhile (fun l => l = [])).reverse

/-- Number of lines of a text that assign the given key in the raw sense
used by `upsertDotenvVar`: the line starts with the key followed by an
equals sign. -/
def countKeyLines (s k : List Char) : Nat :=
  (splitLines s).countP (fun l => lstarts l (k ++ ['=']))

/-- The non-blank lines of a text, in order. -/
def nonblankLines (s : List Char) : List (List Char) :=
  (splitLines s).filter (fun l => l ≠ [])

/-- Does some line of the file start with the key followed by an equals
sign? This is the found flag computed by the scan loop of `upsertDotenvVar`
(src/lib/dotenv.ts, lines 29-36). -/
def hasKeyLine (f k : List Char) : Bool :=
  (upsertLinesOf f).any (fun l => lstarts l (k ++ ['=']))

/-- Lowercase a character list (ASCII case folding, as used by the /i
regular-expression flag on ASCII patterns). -/
def toLowerL (s : List Char) : List Char := s.map Char.toLower

/-- Does `s` contain `pat` as a contiguous substring? -/
def lcontains (pat : List Char) : List Char → Bool
  | [] => lstarts [] pat
  | c :: rest => lstarts (c :: rest) pat || lcontains pat rest

/-- Case-insensitive substring test: the effect of testing an alternation-free
case-insensitive regular expression against a string. -/
def containsCI (s pat : List Char) : Bool := lcontains (toLowerL pat) (toLowerL s)

/-- The readiness test `readyRegex.test(text)` with
`readyRegex = /Convex functions ready/i` (dev.mjs line 240). -/
def readyTest (text : List Char) : Bool := containsCI text ("Convex functions ready").data

/-- The coordinator state observed by the readiness/sync logic of dev.mjs
(lines 236-238): the `convexReady` flag, the `envEnsurerSpawned` latch, and
the number of times the env-ensure helper process has been spawned. -/
structure DevWatchState where
  convexReady : Bool
  envEnsurerSpawned : Bool
  spawnCount : Nat
deriving DecidableEq

/-- Initial state (dev.mjs lines 236-238): both flags false, no helper
process spawned. -/
def initialDevWatchState : DevWatchState := ⟨false, false, 0⟩

/-- spawnEnsurerOnce (dev.mjs lines 241-249): a no-op when the latch is
already set; otherwise set the latch and spawn the helper process once. -/
def spawnEnsurerOnce (s : DevWatchState) : DevWatchState :=
  if s.envEnsurerSpawned then s
  else { s with envEnsurerSpawned := true, spawnCount := s.spawnCount + 1 }

/-- handleConvexData (dev.mjs lines 250-258): on a stdout chunk, when not
yet ready and the chunk matches the readiness pattern, set convexReady and
call spawnEnsurerOnce. -/
def handleConvexData (s : DevWatchState) (text : List Char) : DevWatchState :=
  if !s.convexReady && readyTest text then spawnEnsurerOnce { s with convexReady := true }
  else s

/-- The fallback timer callback (dev.mjs lines 263-265): spawn the helper
if it has not been spawned yet. -/
def fallbackTimerFire (s : DevWatchState) : DevWatchState :=
  if !s.envEnsurerSpawned then spawnEnsurerOnce s else s

/-- An event observed by the coordinator's readiness logic: a stdout chunk
from the backend, or the fallback timer firing. -/
inductive DevEvent
  | data (text : List Char)
  | timer

/-- One step of the coordinator's event handling (events are processed one
at a time on the single JavaScript thread). -/
def devStep (s : DevWatchState) : DevEvent → DevWatchState
  | DevEvent.data text => handleConvexData s text
  | DevEvent.timer => fallbackTimerFire s

/-- Process a sequence of events in order. -/
def runDevEvents (s : DevWatchState) (evs : List DevEvent) : DevWatchState :=
  evs.foldl devStep s

/-- An event that triggers the env-sync action: the timer firing, or a
chunk matching the readiness pattern. -/
def isTriggerEvent : DevEvent → Bool
  | DevEvent.data text => readyTest text
  | DevEvent.timer => true

/-- The two long-running processes supervised by dev.mjs main
(lines 222-233): the Vite app server and the Convex backend. -/
inductive DevChild
  | vite
  | convex
deriving DecidableEq

/-- State of the wait-for-exit tail of dev.mjs main (lines 267-287):
the finished latch, how many SIGINTs were sent to each child by cleanExit,
whether the env watcher was closed, and whether the enclosing promise has
resolved. -/
structure MainWaitState where
  finished : Bool
  viteSigints : Nat
  convexSigints : Nat
  watcherClosed : Bool
  resolved : Bool
deriving DecidableEq

/-- Initial wait state before any child exits. -/
def initialMainWaitState : MainWaitState := ⟨false, 0, 0, false, false⟩

/-- cleanExit (dev.mjs lines 267-272): SIGINT both children and close the
env watcher. -/
def cleanExit (s : MainWaitState) : MainWaitState :=
  { s with viteSigints := s.viteSigints + 1, convexSigints := s.convexSigints + 1,
           watcherClosed := true }

/-- The done handler attached to both children's exit events (dev.mjs
lines 279-284). It is a no-op after the first exit; on the first exit it
runs cleanExit and resolves the promise. It receives the exiting child's
code and signal but uses neither. -/
def doneHandler (s : MainWaitState) : MainWaitState :=
  if s.finished then s
  else { cleanExit { s with finished := true } with resolved := true }

/-- Run the wait tail of main over the observed child-exit events, in
order (dev.mjs lines 285-286 attach the same no-argument done handler to
both children). -/
def runMainWait (exits : List (DevChild × Int)) : MainWaitState :=
  exits.foldl (fun s _ => doneHandler s) initialMainWaitState

/-- The coordinator process's own exit code once the wait resolves: main's
promise resolves with no value, process.exitCode is never assigned, and the
catch handler (dev.mjs lines 290-293, which would exit with 1) is not
invoked, so the Node process exits with status 0. none means main is still
waiting. -/
def coordinatorExitCode (exits : List (DevChild × Int)) : Option Nat :=
  if (runMainWait exits).resolved then some 0 else none

/-- Outcome of one tryBind attempt (dev.mjs lines 20-36): the bind
succeeded, the address family is unavailable (skip), or the port is
treated as in use. -/
inductive BindResult
  | ok
  | skip
  | inUse
deriving DecidableEq

/-- The loopback hosts checked for every candidate port (dev.mjs line 18). -/
def hostsToCheck : List String := ["127.0.0.1", "::1"]

/-- isFree (dev.mjs lines 38-44): a port is free when no checked host
reports the bind as in use; the `bind` oracle stands for the socket API's
answer for each port/host pair. -/
def isFree (bind : Nat → String → BindResult) (port : Nat) : Bool :=
  hostsToCheck.all (fun h => bind port h ≠ BindResult.inUse)

/-- The candidate scan of findAvailablePort (dev.mjs lines 46-49) together
with the ephemeral-port fallback (lines 51-63): fuel counts remaining
attempts, i is the current offset; on exhaustion the OS-assigned port is
validated the same way and port+1 is returned if even that fails. -/
def findPortLoop (bind : Nat → String → BindResult) (osPort startPort : Nat) :
    Nat → Nat → Nat
  | 0, _ => if isFree bind osPort then osPort else osPort + 1
  | fuel + 1, i =>
    if isFree bind (startPort + i) then startPort + i
    else findPortLoop bind osPort startPort fuel (i + 1)

/-- findAvailablePort (dev.mjs lines 16-64), with the socket API abstracted
by the `bind` oracle and the OS-assigned ephemeral port by `osPort`. -/
def findAvailablePort (bind : Nat → String → BindResult) (osPort : Nat)
    (startPort maxAttempts : Nat) : Nat :=
  findPortLoop bind osPort startPort maxAttempts 0

/-- One captured invocation of the convex CLI as runCapture resolves it
(ensure-convex-env.mjs lines 33-47): the exit code (-1 with the error
appended to stderr when spawning failed) and the captured stdout and
stderr texts. -/
structure CliResult where
  code : Int
  stdout : List Char
  stderr : List Char

/-- The retry test of setVar (ensure-convex-env.mjs line 138):
`/RaceDetected|Environment variables have changed during push/i.test(out)`. -/
def isRaceOutput (out : List Char) : Bool :=
  containsCI out ("RaceDetected").data ||
  containsCI out ("Environment variables have changed during push").data

/-- The loop of setVar (ensure-convex-env.mjs lines 130-147): up to
MAX_TRIES = 5 invocations of `convex env set`; a zero exit code is
returned as success at once, with no re-check of the store; a nonzero
exit whose combined output matches the race pattern sleeps and retries;
any other failure writes the output to stderr and returns false, as does
exhausting the tries. `world i` is the result of the i-th (0-based)
invocation; `fuel` counts the remaining iterations (`MAX_TRIES - i` when
in sync). Returns (number of set invocations, success flag). -/
def setVarLoop (world : Nat → CliResult) : Nat → Nat → Nat × Bool
  | 0, _ => (0, false)
  | fuel + 1, i =>
    let res := world i
    if res.code = 0 then (1, true)
    else if isRaceOutput (res.stdout ++ res.stderr) then
      let r := setVarLoop world fuel (i + 1)
      (r.1 + 1, r.2)
    else (1, false)

/-- setVar (ensure-convex-env.mjs lines 130-147) with MAX_TRIES = 5. -/
def setVarModel (world : Nat → CliResult) : Nat × Bool := setVarLoop world 5 0

/-- The looks-unset test of tick (ensure-convex-env.mjs lines 170 and 174):
`res.code !== 0 || !current || /not set|not found|error/i.test(current)`
where `current` is the trimmed stdout of `convex env get`. -/
def getLooksUnset (r : CliResult) : Bool :=
  decide (r.code ≠ 0) || (trimL r.stdout).isEmpty ||
    containsCI (trimL r.stdout) ("not set").data ||
    containsCI (trimL r.stdout) ("not found").data ||
    containsCI (trimL r.stdout) ("error").data

/-- The verification test of tick (ensure-convex-env.mjs lines 184-185):
present means exit code 0 and a nonempty trimmed stdout. -/
def checkPresent (r : CliResult) : Bool :=
  decide (r.code = 0) && !(trimL r.stdout).isEmpty

/-- The external results one tick consumes (ensure-convex-env.mjs lines
160-194): the two initial `env get` results, the per-attempt set results
consulted only when the corresponding variable looks unset, and the two
verification `env get` results. -/
structure TickWorld where
  siteGet : CliResult
  secretGet : CliResult
  siteSet : Nat → CliResult
  secretSet : Nat → CliResult
  siteCheck : CliResult
  secretCheck : CliResult

/-- Set-command invocations one tick makes for SITE_URL (ensure-convex-env.mjs
lines 170-173): setVar runs only when the initial get looks unset. -/
def tickSiteSetCalls (w : TickWorld) : Nat :=
  if getLooksUnset w.siteGet then (setVarModel w.siteSet).1 else 0

/-- Set-command invocations one tick makes for BETTER_AUTH_SECRET
(ensure-convex-env.mjs lines 174-177). -/
def tickSecretSetCalls (w : TickWorld) : Nat :=
  if getLooksUnset w.secretGet then (setVarModel w.secretSet).1 else 0

/-- One tick (ensure-convex-env.mjs lines 160-194): whether the loop stops
(`stopped = true; clearInterval; process.exit(0)` when both verification
reads report the variable present) and how many set invocations the tick
made. A tick has no failing outcome: when the verification does not show
both variables present, it simply leaves the 2-second interval running. -/
def tickStep (w : TickWorld) : Bool × Nat :=
  (checkPresent w.siteCheck && checkPresent w.secretCheck,
    tickSiteSetCalls w + tickSecretSetCalls w)

/-- n ticks of the polling loop (ensure-convex-env.mjs lines 196-198):
once a tick stops the loop, no further tick runs. Returns
(stopped, total set invocations so far). -/
def ticksRun (ws : Nat → TickWorld) : Nat → Bool × Nat
  | 0 => (false, 0)
  | n + 1 =>
    let r := ticksRun ws n
    if r.1 then r
    else
      let t := tickStep (ws n)
      (t.1, r.2 + t.2)

/-- Decimal digits of a natural number (structural recursion on a fuel
bound that is always sufficient at `n + 1`). -/
def natDigitsGo : Nat → Nat → List Char
  | 0, _ => []
  | fuel + 1, n =>
    if n < 10 then [Char.ofNat (48 + n)]
    else natDigitsGo fuel (n / 10) ++ [Char.ofNat (48 + n % 10)]

/-- `String(n)` for a natural number. -/
def natDigits (n : Nat) : List Char := natDigitsGo (n + 1) n

/-- The numeric value of a list of decimal digit characters. -/
def digitsToNat (ds : List Char) : Nat :=
  ds.foldl (fun a c => a * 10 + (c.toNat - 48)) 0

/-- A parsed URL as the WHATWG `URL` class exposes it for the http and
https schemes: `port = none` both when no port was written and when the
written port equals the scheme default (the parser strips the default). -/
structure UrlM where
  secure : Bool
  host : List Char
  port : Option Nat
  path : List Char
deriving DecidableEq

/-- The scheme-default port, `url.protocol === 'https:' ? 443 : 80`
(dev.mjs line 92). -/
def getDefaultPort (secure : Bool) : Nat := if secure then 443 else 80

/-- `url.toString()` for the model: scheme, host, the explicit port when
present, then the path. -/
def serializeUrl (u : UrlM) : List Char :=
  (if u.secure then ("https://").data else ("http://").data) ++ u.host ++
    (match u.port with
     | none => []
     | some p => ':' :: natDigits p) ++
    u.path

/-- `new URL(s)` (dev.mjs line 91) restricted to the http/https schemes:
scheme prefix, then the host up to ':' or '/', an optional all-digit port
that must not exceed 65535 (a larger value makes the whole URL invalid and
the constructor throws), a port equal to the scheme default normalized
away, and a path defaulting to "/". Returns `none` (the constructor
throws) when the scheme is missing, the host is empty, or the port is
malformed or out of range. -/
def parseUrl? (s : List Char) : Option UrlM :=
  let sec? : Option (Bool × List Char) :=
    if lstarts s ("https://").data then some (true, s.drop 8)
    else if lstarts s ("http://").data then some (false, s.drop 7)
    else none
  match sec? with
  | none => none
  | some (sec, rest) =>
    let auth := rest.takeWhile (fun c => c ≠ '/')
    let rawPath := rest.dropWhile (fun c => c ≠ '/')
    let host := auth.takeWhile (fun c => c ≠ ':')
    let portPart := auth.dropWhile (fun c => c ≠ ':')
    if host = [] then none
    else
      let path := if rawPath = [] then ['/'] else rawPath
      match portPart with
      | [] => some { secure := sec, host := host, port := none, path := path }
      | _ :: ds =>
        if ds = [] then some { secure := sec, host := host, port := none, path := path }
        else if ds.all Char.isDigit then
          if 65535 < digitsToNat ds then none
          else if digitsToNat ds = getDefaultPort sec then
            some { secure := sec, host := host, port := none, path := path }
          else some { secure := sec, host := host, port := some (digitsToNat ds), path := path }
        else none

/-- The WHATWG `url.port = String(p)` setter (dev.mjs line 94): an
out-of-range value (p > 65535) is silently ignored, leaving the URL
unchanged; a value equal to the scheme default clears the explicit port;
otherwise the explicit port is replaced. -/
def setUrlPort (u : UrlM) (p : Nat) : UrlM :=
  if 65535 < p then u
  else if p = getDefaultPort u.secure then { u with port := none }
  else { u with port := some p }

/-- `url.toString().replace(/\/$/, '')` tail (dev.mjs line 95): drop one
trailing '/'. -/
def dropTrailingSlash (s : List Char) : List Char :=
  if s.getLast? = some '/' then s.dropLast else s

/-- The convexSiteUrl computation inlined in updateEnvLocal (dev.mjs lines
88-99): a CONVEX_SITE_URL environment override is returned as is;
otherwise the RPC URL is parsed, its explicit port (or the scheme default)
is incremented by one and written back through the port setter, and the
result is serialized with a trailing slash dropped; the catch around an
unparseable URL returns the fixed fallback string http://127.0.0.1:3211,
not an absent value. (`Number.isFinite(basePort)` always holds: a parsed
port is a number and the defaults are 80/443.) -/
def devConvexSiteUrl (envOverride : Option (List Char)) (rpcUrl : List Char) :
    List Char :=
  match envOverride with
  | some v => v
  | none =>
    match parseUrl? rpcUrl with
    | none => ("http://127.0.0.1:3211").data
    | some u =>
      dropTrailingSlash (serializeUrl (setUrlPort u
        ((match u.port with
          | some p => p
          | none => getDefaultPort u.secure) + 1)))

-- ===== Theorems =====

example : upsertDotenvVar "" "K" "V" = "K=V" := by decide
example : upsertDotenvVar "A=1\n" "K" "V" = "A=1\n\nK=V" := by decide
example : upsertDotenvVar "K=1\n\n\n" "K" "V" = "K=V\n" := by decide
example : upsertDotenvVar "A=1\r" "K" "V" = "A=1\r\n\nK=V" := by decide
example : parseDotenvGet "A=1\n\nK = \"hi\" \n" "K" = some "hi" := by decide

theorem consHead_ne_nil (c : Char) (L : List (List Char)) : consHead c L ≠ [] := by
  cases L <;> simp [consHead]

theorem splitLines_cons (c : Char) (t : List Char) (h1 : c = '\n' → False)
    (h2 : ∀ t', c = '\r' → t = '\n' :: t' → False) :
    splitLines (c :: t) = consHead c (splitLines t) := by
  rw [splitLines]
  · exact h1
  · exact h2

theorem splitLines_ne_nil (s : List Char) : splitLines s ≠ [] := by
  induction s using splitLines.induct with
  | case1 => simp [splitLines]
  | case2 t ih => simp [splitLines]
  | case3 t ih => simp [splitLines]
  | case4 c t h1 h2 ih => rw [splitLines_cons c t h1 h2]; exact consHead_ne_nil c (splitLines t)

theorem mem_consHead {c : Char} {L : List (List Char)} {l : List Char}
    (h : l ∈ consHead c L) : l = [c] ∨ (∃ m ∈ L, l = c :: m) ∨ l ∈ L.tail := by
  cases L with
  | nil => simp [consHead] at h; simp [h]
  | cons x xs =>
    simp [consHead] at h
    rcases h with h | h
    · exact Or.inr (Or.inl ⟨x, by simp, h⟩)
    · exact Or.inr (Or.inr (by simpa using h))

theorem nl_not_mem_splitLines {s : List Char} {l : List Char}
    (h : l ∈ splitLines s) : '\n' ∉ l := by
  induction s using splitLines.induct generalizing l with
  | case1 => simp [splitLines] at h; simp [h]
  | case2 t ih =>
    rw [splitLines] at h
    rcases List.mem_cons.mp h with h | h
    · simp [h]
    · exact ih h
  | case3 t ih =>
    rw [splitLines] at h
    rcases List.mem_cons.mp h with h | h
    · simp [h]
    · exact ih h
  | case4 c t h1 h2 ih =>
    rw [splitLines_cons c t h1 h2] at h
    rcases mem_consHead h with h | ⟨m, hm, rfl⟩ | h
    · subst h
      intro hc
      rcases List.mem_singleton.mp hc with rfl
      exact h1 rfl
    · intro hc
      rcases List.mem_cons.mp hc with hc | hc
      · exact h1 hc.symm
      · exact ih hm hc
    · exact ih (List.mem_of_mem_tail h)

theorem splitLines_no_nl {l : List Char} (h : '\n' ∉ l) : splitLines l = [l] := by
  induction l with
  | nil => rfl
  | cons c t ih =>
    have hc : c ≠ '\n' := fun hc => h (by simp [hc])
    have ht : '\n' ∉ t := fun ht => h (by simp [ht])
    rw [splitLines_cons c t (fun hcc => hc hcc)
      (fun t' _ htt => ht (by simp [htt]))]
    rw [ih ht]
    rfl

theorem dropLastCr_cons {c : Char} {l : List Char} (h : l ≠ []) :
    dropLastCr (c :: l) = c :: dropLastCr l := by
  obtain ⟨x, xs, rfl⟩ := List.exists_cons_of_ne_nil h
  simp only [dropLastCr, List.getLast?_cons_cons, List.dropLast_cons₂]
  split <;> rfl

theorem dropLastCr_eq_self {l : List Char} (h : l.getLast? ≠ some '\r') :
    dropLastCr l = l := by
  simp [dropLastCr, h]

theorem splitLines_append_nl {l t : List Char} (h : '\n' ∉ l) :
    splitLines (l ++ '\n' :: t) = dropLastCr l :: splitLines t := by
  induction l with
  | nil => simp [splitLines, dropLastCr]
  | cons c l' ih =>
    have hc : c ≠ '\n' := fun hc => h (by simp [hc])
    have hl' : '\n' ∉ l' := fun hx => h (by simp [hx])
    cases l' with
    | nil =>
      by_cases hcr : c = '\r'
      · subst hcr
        show splitLines ('\r' :: '\n' :: t) = _
        rw [splitLines]
        rfl
      · show splitLines (c :: '\n' :: t) = _
        rw [splitLines_cons c ('\n' :: t) (fun hcc => hc hcc)
          (fun t' hcc _ => hcr hcc)]
        rw [splitLines]
        simp [consHead, dropLastCr, hcr]
    | cons x xs =>
      have hx : x ≠ '\n' := fun hx2 => hl' (by simp [hx2])
      rw [List.cons_append]
      rw [splitLines_cons c ((x :: xs) ++ '\n' :: t) (fun hcc => hc hcc)
        (fun t' _ htt => hx (by simpa using congrArg List.head? htt))]
      rw [ih hl']
      rw [show dropLastCr (c :: x :: xs) = c :: dropLastCr (x :: xs) from dropLastCr_cons (by simp)]
      rfl

theorem splitLines_joinLines {L : List (List Char)} (hne : L ≠ [])
    (h1 : ∀ l ∈ L, '\n' ∉ l) (h2 : ∀ l ∈ L, l.getLast? ≠ some '\r') :
    splitLines (joinLines L) = L := by
  induction L with
  | nil => exact absurd rfl hne
  | cons l L' ih =>
    cases L' with
    | nil => exact splitLines_no_nl (h1 l (by simp))
    | cons m M =>
      show splitLines (l ++ '\n' :: joinLines (m :: M)) = _
      rw [splitLines_append_nl (h1 l (by simp))]
      rw [ih (by simp) (fun x hx => h1 x (by simp [hx])) (fun x hx => h2 x (by simp [hx]))]
      rw [dropLastCr_eq_self (h2 l (by simp))]

theorem dropWhile_head_false {α : Type} (p : α → Bool) (l : List α)
    (h : ∀ x, l.head? = some x → p x = false) : l.dropWhile p = l := by
  cases l with
  | nil => rfl
  | cons x xs => simp [List.dropWhile_cons, h x rfl]

theorem dropWhile_replicate_append {α : Type} (p : α → Bool) (x : α) (hx : p x = true)
    (n : Nat) (r : List α) : (List.replicate n x ++ r).dropWhile p = r.dropWhile p := by
  induction n with
  | zero => rfl
  | succ n ih => simp [List.replicate_succ, List.dropWhile_cons, hx, ih]

theorem collapseNl_of_not_nl {s : List Char} (h : s.getLast? ≠ some '\n') :
    collapseNl s = s := by
  simp [collapseNl, h]

theorem collapseNl_append_replicate {t : List Char} (h : t.getLast? ≠ some '\n')
    (b : Nat) : collapseNl (t ++ List.replicate (b + 1) '\n') = t ++ ['\n'] := by
  have hlast : (t ++ List.replicate (b + 1) '\n').getLast? = some '\n' := by
    rw [← List.head?_reverse, List.reverse_append, List.reverse_replicate]
    simp [List.replicate_succ]
  rw [collapseNl, if_pos hlast]
  rw [List.reverse_append, List.reverse_replicate]
  rw [dropWhile_replicate_append (fun c => c = '\n') '\n' (by simp) (b + 1) t.reverse]
  rw [dropWhile_head_false _ _ (fun x hx => by
    rw [List.head?_reverse] at hx
    simp only [decide_eq_false_iff_not]
    intro hxx
    exact h (by rw [hx, hxx]))]
  simp

theorem all_blank_eq_replicate (L : List (List Char)) (h : ∀ x ∈ L, x = []) :
    L = List.replicate L.length [] := by
  induction L with
  | nil => rfl
  | cons x xs ih =>
    have hx : x = [] := h x (by simp)
    subst hx
    rw [List.length_cons, List.replicate_succ]
    congr 1
    exact ih (fun y hy => h y (by simp [hy]))

theorem dropTrailingBlanks_spec (L : List (List Char)) :
    ∃ b, L = dropTrailingBlanks L ++ List.replicate b [] := by
  refine ⟨(L.reverse.takeWhile (fun l => l = [])).length, ?_⟩
  conv_lhs => rw [← List.reverse_reverse L, ← List.takeWhile_append_dropWhile
    (p := fun l => l = []) (l := L.reverse)]
  rw [List.reverse_append, dropTrailingBlanks]
  congr 1
  rw [← List.reverse_replicate]
  congr 1
  apply all_blank_eq_replicate
  intro x hx
  have := List.mem_takeWhile_imp hx
  simpa using this

theorem dropTrailingBlanks_getLast {L : List (List Char)} {l : List Char}
    (h : (dropTrailingBlanks L).getLast? = some l) : l ≠ [] := by
  rw [dropTrailingBlanks, List.getLast?_reverse] at h
  intro hl
  subst hl
  have : ∀ (M : List (List Char)), (M.dropWhile (fun l => l = [])).head? ≠ some [] := by
    intro M
    induction M with
    | nil => simp
    | cons x xs ih =>
      by_cases hx : x = []
      · simpa [List.dropWhile_cons, hx] using ih
      · simp [List.dropWhile_cons, hx]
  exact this L.reverse h

theorem mem_of_getLast?H {α : Type} {l : List α} {a : α} (h : l.getLast? = some a) :
    a ∈ l := by
  obtain ⟨B, rfl⟩ := List.getLast?_eq_some_iff.mp h
  simp

theorem mem_dropTrailingBlanks {L : List (List Char)} {l : List Char}
    (h : l ∈ dropTrailingBlanks L) : l ∈ L := by
  rw [dropTrailingBlanks, List.mem_reverse] at h
  exact List.mem_reverse.mp ((List.dropWhile_sublist _).mem h)

theorem getLast?_append_right {α : Type} (x y : List α) (hy : y ≠ []) :
    (x ++ y).getLast? = y.getLast? := by
  rw [← List.head?_reverse, ← List.head?_reverse (l := y), List.reverse_append]
  cases hyr : y.reverse with
  | nil => exact absurd (by simpa using congrArg List.reverse hyr) hy
  | cons a as => simp

theorem joinLines_append_singleton {A : List (List Char)} (hA : A ≠ [])
    (b : List Char) : joinLines (A ++ [b]) = joinLines A ++ '\n' :: b := by
  induction A with
  | nil => exact absurd rfl hA
  | cons a A' ih =>
    cases A' with
    | nil => rfl
    | cons m M =>
      show joinLines (a :: ((m :: M) ++ [b])) = _
      have h1 : joinLines (a :: ((m :: M) ++ [b])) = a ++ '\n' :: joinLines ((m :: M) ++ [b]) := rfl
      rw [h1, ih (by simp)]
      show _ = (a ++ '\n' :: joinLines (m :: M)) ++ '\n' :: b
      simp

theorem joinLines_append_replicate_blank {A : List (List Char)} (hA : A ≠ [])
    (n : Nat) : joinLines (A ++ List.replicate n []) = joinLines A ++ List.replicate n '\n' := by
  induction n with
  | zero => simp
  | succ n ih =>
    rw [List.replicate_succ' (n := n), ← List.append_assoc,
      joinLines_append_singleton (by simp [hA]) [], ih]
    simp [List.replicate_succ' (n := n)]

theorem joinLines_getLast_of_last_ne_blank {L : List (List Char)} {l : List Char}
    (hL : L.getLast? = some l) (hl : l ≠ []) :
    (joinLines L).getLast? = l.getLast? := by
  obtain ⟨B, rfl⟩ := List.getLast?_eq_some_iff.mp hL
  cases B with
  | nil => rfl
  | cons b B' =>
    rw [joinLines_append_singleton (by simp) l]
    rw [getLast?_append_right _ _ (by simp)]
    obtain ⟨y, ys, rfl⟩ := List.exists_cons_of_ne_nil hl
    simp

theorem collapseNl_joinLines_of_last_ne_blank {L : List (List Char)} {l : List Char}
    (hL : L.getLast? = some l) (hl : l ≠ []) (hnl : '\n' ∉ l) :
    collapseNl (joinLines L) = joinLines L := by
  apply collapseNl_of_not_nl
  rw [joinLines_getLast_of_last_ne_blank hL hl]
  intro hx
  exact hnl (mem_of_getLast?H hx)

theorem collapseNl_joinLines_blank {L : List (List Char)}
    (hL : L.getLast? = some []) (hmem : ∀ l ∈ L, '\n' ∉ l)
    (hne : dropTrailingBlanks L ≠ []) :
    collapseNl (joinLines L) = joinLines (dropTrailingBlanks L) ++ ['\n'] := by
  obtain ⟨b, hdec⟩ := dropTrailingBlanks_spec L
  have hb : b ≠ 0 := by
    intro hb0
    subst hb0
    simp at hdec
    rw [hdec] at hL
    exact absurd rfl (dropTrailingBlanks_getLast hL)
  obtain ⟨b', rfl⟩ := Nat.exists_eq_succ_of_ne_zero hb
  have hJ : joinLines L = joinLines (dropTrailingBlanks L) ++ List.replicate (b' + 1) '\n' := by
    conv_lhs => rw [hdec]
    exact joinLines_append_replicate_blank hne _
  rw [hJ]
  apply collapseNl_append_replicate
  have hlast : ∃ m, (dropTrailingBlanks L).getLast? = some m := by
    cases hD : (dropTrailingBlanks L).getLast? with
    | none => exact absurd (List.getLast?_eq_none_iff.mp hD) hne
    | some m => exact ⟨m, rfl⟩
  obtain ⟨m, hm⟩ := hlast
  have hmne : m ≠ [] := dropTrailingBlanks_getLast hm
  rw [joinLines_getLast_of_last_ne_blank hm hmne]
  intro hx
  exact hmem m (mem_dropTrailingBlanks (mem_of_getLast?H hm)) (mem_of_getLast?H hx)

theorem lstarts_iff {s p : List Char} : lstarts s p = true ↔ ∃ r, s = p ++ r := by
  induction p generalizing s with
  | nil => simp [lstarts]
  | cons c ps ih =>
    cases s with
    | nil =>
      simp only [lstarts]
      constructor
      · intro h; exact absurd h (by simp)
      · rintro ⟨r, hr⟩; simp at hr
    | cons x xs =>
      simp only [lstarts, Bool.and_eq_true, decide_eq_true_eq, ih]
      constructor
      · rintro ⟨rfl, r, rfl⟩; exact ⟨r, rfl⟩
      · rintro ⟨r, hr⟩
        rw [List.cons_append] at hr
        exact ⟨(List.cons.injEq _ _ _ _ ▸ hr).1, r, (List.cons.injEq _ _ _ _ ▸ hr).2⟩

theorem lstarts_nil_false {p : List Char} (hp : p ≠ []) : lstarts [] p = false := by
  cases p with
  | nil => exact absurd rfl hp
  | cons c ps => rfl

theorem lstarts_self_append (p r : List Char) : lstarts (p ++ r) p = true :=
  lstarts_iff.mpr ⟨r, rfl⟩

theorem replaceFirst_none_iff {pre nl : List Char} {L : List (List Char)} :
    replaceFirst pre nl L = none ↔ ∀ l ∈ L, lstarts l pre = false := by
  induction L with
  | nil => simp [replaceFirst]
  | cons x xs ih =>
    rw [replaceFirst]
    by_cases hx : lstarts x pre = true
    · simp [hx]
    · rw [if_neg hx]
      simp only [Option.map_eq_none', ih, List.mem_cons]
      constructor
      · intro h l hl
        rcases hl with rfl | hl
        · exact Bool.eq_false_iff.mpr hx
        · exact h l hl
      · intro h l hl
        exact h l (Or.inr hl)

theorem replaceFirst_apply {pre nl : List Char} (A : List (List Char)) (l : List Char)
    (B : List (List Char)) (hA : ∀ a ∈ A, lstarts a pre = false)
    (hl : lstarts l pre = true) :
    replaceFirst pre nl (A ++ l :: B) = some (A ++ nl :: B) := by
  induction A with
  | nil => simp [replaceFirst, hl]
  | cons a A' ih =>
    rw [List.cons_append, replaceFirst, if_neg (by simp [hA a (by simp)]),
      ih (fun x hx => hA x (by simp [hx]))]
    rfl

theorem replaceFirst_some_spec {pre nl : List Char} {L M : List (List Char)}
    (h : replaceFirst pre nl L = some M) :
    ∃ A l B, L = A ++ l :: B ∧ M = A ++ nl :: B ∧
      (∀ a ∈ A, lstarts a pre = false) ∧ lstarts l pre = true := by
  induction L generalizing M with
  | nil => simp [replaceFirst] at h
  | cons x xs ih =>
    rw [replaceFirst] at h
    by_cases hx : lstarts x pre = true
    · rw [if_pos hx] at h
      exact ⟨[], x, xs, rfl, by simpa using h.symm, by simp, hx⟩
    · rw [if_neg hx] at h
      obtain ⟨M', hM', rfl⟩ := Option.map_eq_some'.mp h
      obtain ⟨A, l, B, rfl, rfl, hA, hl⟩ := ih hM'
      refine ⟨x :: A, l, B, rfl, rfl, ?_, hl⟩
      intro a ha
      rcases List.mem_cons.mp ha with rfl | ha
      · exact Bool.eq_false_iff.mpr hx
      · exact hA a ha

theorem joinLines_eq_nil_iff {L : List (List Char)} :
    joinLines L = [] ↔ L = [] ∨ L = [[]] := by
  cases L with
  | nil => simp [joinLines]
  | cons l ls =>
    cases ls with
    | nil => simp [joinLines]
    | cons m M =>
      show l ++ '\n' :: joinLines (m :: M) = [] ↔ _
      simp

theorem dropTrailingBlanks_ne_nil_of_mem {L : List (List Char)} {x : List Char}
    (hx : x ∈ L) (hxne : x ≠ []) : dropTrailingBlanks L ≠ [] := by
  intro h
  obtain ⟨b, hdec⟩ := dropTrailingBlanks_spec L
  rw [h, List.nil_append] at hdec
  rw [hdec] at hx
  exact hxne (List.eq_of_mem_replicate hx)

theorem dropWhile_append_stop {α : Type} (p : α → Bool) (W V : List α) (y : α)
    (hy : p y = false) : (W ++ y :: V).dropWhile p = W.dropWhile p ++ y :: V := by
  induction W with
  | nil => simp [List.dropWhile_cons, hy]
  | cons w W' ih =>
    by_cases hw : p w = true
    · simp [List.dropWhile_cons, hw, ih]
    · simp [List.dropWhile_cons, Bool.eq_false_iff.mpr hw]

theorem dropTrailingBlanks_append_mid {X Z : List (List Char)} {y : List Char}
    (hy : y ≠ []) :
    dropTrailingBlanks (X ++ y :: Z) = X ++ y :: dropTrailingBlanks Z := by
  rw [dropTrailingBlanks, dropTrailingBlanks, List.reverse_append, List.reverse_cons,
    List.append_assoc, List.singleton_append,
    dropWhile_append_stop _ _ _ y (by simp [hy])]
  simp

theorem dropTrailingBlanks_append_blank (D : List (List Char)) :
    dropTrailingBlanks (D ++ [[]]) = dropTrailingBlanks D := by
  rw [dropTrailingBlanks, dropTrailingBlanks, List.reverse_append]
  simp [List.dropWhile_cons]

theorem dropTrailingBlanks_eq_self {D : List (List Char)} {m : List Char}
    (hD : D.getLast? = some m) (hm : m ≠ []) : dropTrailingBlanks D = D := by
  obtain ⟨B, rfl⟩ := List.getLast?_eq_some_iff.mp hD
  rw [show B ++ [m] = B ++ m :: ([] : List (List Char)) from rfl,
    dropTrailingBlanks_append_mid hm]
  rfl

theorem newLine_no_nl {k v : List Char} (hkn : '\n' ∉ k) (hvn : '\n' ∉ v) :
    '\n' ∉ k ++ '=' :: v := by
  simp only [List.mem_append, List.mem_cons]
  rintro (h | h | h)
  · exact hkn h
  · exact absurd h (by decide)
  · exact hvn h

theorem newLine_getLast_ne_cr {k v : List Char} (hvr : '\r' ∉ v) :
    (k ++ '=' :: v).getLast? ≠ some '\r' := by
  rw [getLast?_append_right k ('=' :: v) (by simp)]
  intro h
  rcases List.mem_cons.mp (mem_of_getLast?H h) with h2 | h2
  · exact absurd h2 (by decide)
  · exact hvr h2

theorem newLine_matches {k v : List Char} :
    lstarts (k ++ '=' :: v) (k ++ ['=']) = true := by
  have : (k ++ ['=']) ++ v = k ++ '=' :: v := by simp
  exact this ▸ lstarts_self_append (k ++ ['=']) v

theorem replace_case_facts {f k v : List Char} {L2 : List (List Char)}
    (hkn : '\n' ∉ k) (hvn : '\n' ∉ v) (hvr : '\r' ∉ v)
    (hf : ∀ l ∈ splitLines f, l.getLast? ≠ some '\r')
    (hrf : replaceFirst (k ++ ['=']) (k ++ '=' :: v) (upsertLinesOf f) = some L2) :
    (∀ x ∈ L2, '\n' ∉ x) ∧ (∀ x ∈ L2, x.getLast? ≠ some '\r') ∧
      (k ++ '=' :: v) ∈ L2 ∧ L2 ≠ [] := by
  by_cases hfe : f = []
  · rw [hfe] at hrf
    simp [upsertLinesOf, replaceFirst] at hrf
  · rw [upsertLinesOf, if_neg hfe] at hrf
    obtain ⟨A, l, B, hLn, hM, _, _⟩ := replaceFirst_some_spec hrf
    have hmem : ∀ x ∈ L2, x ∈ splitLines f ∨ x = k ++ '=' :: v := by
      intro x hx
      rw [hM] at hx
      rcases List.mem_append.mp hx with hx | hx
      · exact Or.inl (hLn ▸ List.mem_append.mpr (Or.inl hx))
      · rcases List.mem_cons.mp hx with rfl | hx
        · exact Or.inr rfl
        · exact Or.inl (hLn ▸ List.mem_append.mpr (Or.inr (List.mem_cons.mpr (Or.inr hx))))
    refine ⟨?_, ?_, ?_, ?_⟩
    · intro x hx
      rcases hmem x hx with hx2 | rfl
      · exact nl_not_mem_splitLines hx2
      · exact newLine_no_nl hkn hvn
    · intro x hx
      rcases hmem x hx with hx2 | rfl
      · exact hf x hx2
      · exact newLine_getLast_ne_cr hvr
    · exact hM ▸ List.mem_append.mpr (Or.inr (by simp))
    · rw [hM]; simp

theorem upsert_replace_eq {f k v : List Char} {L2 : List (List Char)}
    (hkn : '\n' ∉ k) (hvn : '\n' ∉ v) (hvr : '\r' ∉ v)
    (hf : ∀ l ∈ splitLines f, l.getLast? ≠ some '\r')
    (hrf : replaceFirst (k ++ ['=']) (k ++ '=' :: v) (upsertLinesOf f) = some L2) :
    upsertDotenvVarCore f k v =
      joinLines (if L2.getLast? = some [] then dropTrailingBlanks L2 ++ [[]] else L2) ∧
    splitLines (upsertDotenvVarCore f k v) =
      (if L2.getLast? = some [] then dropTrailingBlanks L2 ++ [[]] else L2) := by
  obtain ⟨hno_nl, hno_cr, hnl_mem, hL2ne⟩ := replace_case_facts hkn hvn hvr hf hrf
  have hval : upsertDotenvVarCore f k v = collapseNl (joinLines L2) := by
    rw [upsertDotenvVarCore, hrf]
  by_cases hlast : L2.getLast? = some []
  · rw [if_pos hlast]
    have hD : dropTrailingBlanks L2 ≠ [] :=
      dropTrailingBlanks_ne_nil_of_mem hnl_mem (by simp)
    have h1 : upsertDotenvVarCore f k v = joinLines (dropTrailingBlanks L2 ++ [[]]) := by
      rw [hval, collapseNl_joinLines_blank hlast hno_nl hD,
        joinLines_append_singleton hD []]
    refine ⟨h1, ?_⟩
    rw [h1]
    apply splitLines_joinLines (by simp)
    · intro x hx
      rcases List.mem_append.mp hx with hx | hx
      · exact hno_nl x (mem_dropTrailingBlanks hx)
      · rcases List.mem_singleton.mp hx with rfl; simp
    · intro x hx
      rcases List.mem_append.mp hx with hx | hx
      · exact hno_cr x (mem_dropTrailingBlanks hx)
      · rcases List.mem_singleton.mp hx with rfl; simp
  · rw [if_neg hlast]
    obtain ⟨m, hm⟩ : ∃ m, L2.getLast? = some m := by
      cases hg : L2.getLast? with
      | none => exact absurd (List.getLast?_eq_none_iff.mp hg) hL2ne
      | some m => exact ⟨m, rfl⟩
    have hmne : m ≠ [] := by
      intro h0; rw [h0] at hm; exact hlast hm
    have h1 : upsertDotenvVarCore f k v = joinLines L2 := by
      rw [hval,
        collapseNl_joinLines_of_last_ne_blank hm hmne (hno_nl m (mem_of_getLast?H hm))]
    refine ⟨h1, ?_⟩
    rw [h1]
    exact splitLines_joinLines hL2ne hno_nl hno_cr

theorem upsert_append_eq {f k v : List Char}
    (hkn : '\n' ∉ k) (hvn : '\n' ∉ v) (hvr : '\r' ∉ v)
    (hf : ∀ l ∈ splitLines f, l.getLast? ≠ some '\r')
    (hrf : replaceFirst (k ++ ['=']) (k ++ '=' :: v) (upsertLinesOf f) = none) :
    upsertDotenvVarCore f k v =
      joinLines (appendNewLine (upsertLinesOf f) (k ++ '=' :: v)) ∧
    splitLines (upsertDotenvVarCore f k v) =
      appendNewLine (upsertLinesOf f) (k ++ '=' :: v) := by
  have hmemlines : ∀ x ∈ upsertLinesOf f, x ∈ splitLines f := by
    intro x hx
    rw [upsertLinesOf] at hx
    by_cases hfe : f = []
    · rw [if_pos hfe] at hx; simp at hx
    · rw [if_neg hfe] at hx; exact hx
  obtain ⟨S, hS, hA⟩ : ∃ S, (S = [] ∨ S = [[]]) ∧
      appendNewLine (upsertLinesOf f) (k ++ '=' :: v) =
        (upsertLinesOf f ++ S) ++ [k ++ '=' :: v] := by
    rw [appendNewLine]
    by_cases hc : upsertLinesOf f ≠ [] ∧ (upsertLinesOf f).getLast? ≠ some []
    · exact ⟨[[]], Or.inr rfl, by rw [if_pos hc]; simp⟩
    · exact ⟨[], Or.inl rfl, by rw [if_neg hc]; simp⟩
  have hmem2 : ∀ x ∈ appendNewLine (upsertLinesOf f) (k ++ '=' :: v),
      x ∈ splitLines f ∨ x = [] ∨ x = k ++ '=' :: v := by
    intro x hx
    rw [hA] at hx
    rcases List.mem_append.mp hx with hx | hx
    · rcases List.mem_append.mp hx with hx | hx
      · exact Or.inl (hmemlines x hx)
      · rcases hS with rfl | rfl
        · simp at hx
        · rcases List.mem_singleton.mp hx with rfl; exact Or.inr (Or.inl rfl)
    · rcases List.mem_singleton.mp hx with rfl; exact Or.inr (Or.inr rfl)
  have hlast2 : (appendNewLine (upsertLinesOf f) (k ++ '=' :: v)).getLast? =
      some (k ++ '=' :: v) := by
    rw [hA, getLast?_append_right _ _ (by simp)]; rfl
  have hval : upsertDotenvVarCore f k v =
      collapseNl (joinLines (appendNewLine (upsertLinesOf f) (k ++ '=' :: v))) := by
    rw [upsertDotenvVarCore, hrf]
  have h1 : upsertDotenvVarCore f k v =
      joinLines (appendNewLine (upsertLinesOf f) (k ++ '=' :: v)) := by
    rw [hval]
    exact collapseNl_joinLines_of_last_ne_blank hlast2 (by simp)
      (newLine_no_nl hkn hvn)
  refine ⟨h1, ?_⟩
  rw [h1]
  apply splitLines_joinLines (by rw [hA]; simp)
  · intro x hx
    rcases hmem2 x hx with hx2 | rfl | rfl
    · exact nl_not_mem_splitLines hx2
    · simp
    · exact newLine_no_nl hkn hvn
  · intro x hx
    rcases hmem2 x hx with hx2 | rfl | rfl
    · exact hf x hx2
    · simp
    · exact newLine_getLast_ne_cr hvr

theorem upsertLinesOf_of_ne_nil {g : List Char} (h : g ≠ []) :
    upsertLinesOf g = splitLines g := by
  rw [upsertLinesOf, if_neg h]

theorem joinLines_ne_nil_of_mem {L : List (List Char)} {x : List Char}
    (hx : x ∈ L) (hxne : x ≠ []) : joinLines L ≠ [] := by
  intro h0
  rcases joinLines_eq_nil_iff.mp h0 with rfl | rfl
  · simp at hx
  · rcases List.mem_singleton.mp hx with rfl
    exact hxne rfl

theorem upsert_idem_core (f k v : List Char)
    (hkn : '\n' ∉ k) (hvn : '\n' ∉ v) (hvr : '\r' ∉ v)
    (hf : ∀ l ∈ splitLines f, l.getLast? ≠ some '\r') :
    upsertDotenvVarCore (upsertDotenvVarCore f k v) k v = upsertDotenvVarCore f k v := by
  cases hrf : replaceFirst (k ++ ['=']) (k ++ '=' :: v) (upsertLinesOf f) with
  | some L2 =>
    obtain ⟨hno_nl, hno_cr, hnl_mem, hL2ne⟩ := replace_case_facts hkn hvn hvr hf hrf
    obtain ⟨hgv, hgs⟩ := upsert_replace_eq hkn hvn hvr hf hrf
    have hval : upsertDotenvVarCore f k v = collapseNl (joinLines L2) := by
      rw [upsertDotenvVarCore, hrf]
    have hfe : f ≠ [] := by
      intro h0
      rw [h0] at hrf
      simp [upsertLinesOf, replaceFirst] at hrf
    rw [upsertLinesOf_of_ne_nil hfe] at hrf
    obtain ⟨A, l0, B, hLn, hL2, hAnm, hl0⟩ := replaceFirst_some_spec hrf
    set g := upsertDotenvVarCore f k v with hgdef
    by_cases hlast : L2.getLast? = some []
    · rw [if_pos hlast] at hgv hgs
      have hD : dropTrailingBlanks L2 ≠ [] :=
        dropTrailingBlanks_ne_nil_of_mem hnl_mem (by simp)
      obtain ⟨m', hm'⟩ : ∃ m', (dropTrailingBlanks L2).getLast? = some m' := by
        cases hg0 : (dropTrailingBlanks L2).getLast? with
        | none => exact absurd (List.getLast?_eq_none_iff.mp hg0) hD
        | some m' => exact ⟨m', rfl⟩
      have hm'ne : m' ≠ [] := dropTrailingBlanks_getLast hm'
      have hgn : g ≠ [] := by
        rw [hgv]
        exact joinLines_ne_nil_of_mem
          (List.mem_append.mpr (Or.inl (mem_of_getLast?H hm'))) hm'ne
      have hDdec : dropTrailingBlanks L2 = A ++ (k ++ '=' :: v) :: dropTrailingBlanks B := by
        rw [hL2, dropTrailingBlanks_append_mid (by simp)]
      have hsplit2 : splitLines g =
          A ++ (k ++ '=' :: v) :: (dropTrailingBlanks B ++ [[]]) := by
        rw [hgs, hDdec]
        simp
      have hrf2 : replaceFirst (k ++ ['=']) (k ++ '=' :: v) (upsertLinesOf g) =
          some (A ++ (k ++ '=' :: v) :: (dropTrailingBlanks B ++ [[]])) := by
        rw [upsertLinesOf_of_ne_nil hgn, hsplit2]
        exact replaceFirst_apply A _ _ hAnm newLine_matches
      have e1 : dropTrailingBlanks (dropTrailingBlanks L2 ++ [[]]) = dropTrailingBlanks L2 := by
        rw [dropTrailingBlanks_append_blank, dropTrailingBlanks_eq_self hm' hm'ne]
      have e2 : collapseNl (joinLines (dropTrailingBlanks L2 ++ [[]])) =
          joinLines (dropTrailingBlanks L2) ++ ['\n'] := by
        rw [collapseNl_joinLines_blank (by rw [getLast?_append_right _ _ (by simp)]; rfl)
          (fun x hx => by
            rcases List.mem_append.mp hx with hx | hx
            · exact hno_nl x (mem_dropTrailingBlanks hx)
            · rcases List.mem_singleton.mp hx with rfl; simp)
          (by rw [e1]; exact hD), e1]
      have e3 : joinLines (dropTrailingBlanks L2 ++ [[]]) =
          joinLines (dropTrailingBlanks L2) ++ ['\n'] := by
        rw [joinLines_append_singleton hD []]
      rw [upsertDotenvVarCore, hrf2]
      have e4 : A ++ (k ++ '=' :: v) :: (dropTrailingBlanks B ++ [[]]) =
          dropTrailingBlanks L2 ++ [[]] := by
        rw [hDdec]
        simp
      rw [e4]
      show collapseNl (joinLines (dropTrailingBlanks L2 ++ [[]])) = g
      rw [e2, ← e3, ← hgv]
    · rw [if_neg hlast] at hgv hgs
      have hgn : g ≠ [] := by
        rw [hgv]
        exact joinLines_ne_nil_of_mem hnl_mem (by simp)
      have hrf2 : replaceFirst (k ++ ['=']) (k ++ '=' :: v) (upsertLinesOf g) =
          some L2 := by
        rw [upsertLinesOf_of_ne_nil hgn, hgs, hL2]
        exact replaceFirst_apply A _ B hAnm newLine_matches
      rw [upsertDotenvVarCore, hrf2]
      show collapseNl (joinLines L2) = g
      rw [← hval]
  | none =>
    have hnm : ∀ l ∈ upsertLinesOf f, lstarts l (k ++ ['=']) = false :=
      replaceFirst_none_iff.mp hrf
    obtain ⟨hgv, hgs⟩ := upsert_append_eq hkn hvn hvr hf hrf
    have hval : upsertDotenvVarCore f k v =
        collapseNl (joinLines (appendNewLine (upsertLinesOf f) (k ++ '=' :: v))) := by
      rw [upsertDotenvVarCore, hrf]
    set g := upsertDotenvVarCore f k v with hgdef
    obtain ⟨S, hS, hA⟩ : ∃ S, (S = [] ∨ S = [[]]) ∧
        appendNewLine (upsertLinesOf f) (k ++ '=' :: v) =
          (upsertLinesOf f ++ S) ++ [k ++ '=' :: v] := by
      rw [appendNewLine]
      by_cases hc : upsertLinesOf f ≠ [] ∧ (upsertLinesOf f).getLast? ≠ some []
      · exact ⟨[[]], Or.inr rfl, by rw [if_pos hc]; simp⟩
      · exact ⟨[], Or.inl rfl, by rw [if_neg hc]; simp⟩
    have hgn : g ≠ [] := by
      rw [hgv]
      exact joinLines_ne_nil_of_mem (x := k ++ '=' :: v) (hA ▸ by simp) (by simp)
    have hallnm : ∀ a ∈ upsertLinesOf f ++ S, lstarts a (k ++ ['=']) = false := by
      intro a ha
      rcases List.mem_append.mp ha with ha | ha
      · exact hnm a ha
      · rcases hS with rfl | rfl
        · simp at ha
        · rcases List.mem_singleton.mp ha with rfl
          exact lstarts_nil_false (by simp)
    have hrf2 : replaceFirst (k ++ ['=']) (k ++ '=' :: v) (upsertLinesOf g) =
        some (appendNewLine (upsertLinesOf f) (k ++ '=' :: v)) := by
      rw [upsertLinesOf_of_ne_nil hgn, hgs, hA]
      exact replaceFirst_apply (upsertLinesOf f ++ S) _ [] hallnm newLine_matches
    rw [upsertDotenvVarCore, hrf2]
    show collapseNl (joinLines (appendNewLine (upsertLinesOf f) (k ++ '=' :: v))) = g
    rw [← hval]

theorem key_eq_of_newLine_eq {k k' v r : List Char} (hk : '=' ∉ k) (hk' : '=' ∉ k')
    (h : k ++ '=' :: v = k' ++ '=' :: r) : k = k' := by
  induction k generalizing k' with
  | nil =>
    cases k' with
    | nil => rfl
    | cons c ks =>
      rw [List.nil_append, List.cons_append] at h
      have hc : '=' = c := (List.cons.injEq _ _ _ _ ▸ h).1
      exact absurd (by simp [← hc]) hk'
  | cons c ks ih =>
    cases k' with
    | nil =>
      rw [List.nil_append, List.cons_append] at h
      have hc : c = '=' := (List.cons.injEq _ _ _ _ ▸ h).1
      exact absurd (by simp [hc]) hk
    | cons c' ks' =>
      rw [List.cons_append, List.cons_append] at h
      have hc : c = c' := (List.cons.injEq _ _ _ _ ▸ h).1
      have ht := (List.cons.injEq _ _ _ _ ▸ h).2
      rw [hc, ih (fun hm => hk (by simp [hm])) (fun hm => hk' (by simp [hm])) ht]

theorem newLine_matches_iff {k k' v : List Char} (hk : '=' ∉ k) (hk' : '=' ∉ k') :
    lstarts (k ++ '=' :: v) (k' ++ ['=']) = true ↔ k' = k := by
  constructor
  · intro h
    obtain ⟨r, hr⟩ := lstarts_iff.mp h
    rw [List.append_assoc, List.singleton_append] at hr
    exact (key_eq_of_newLine_eq hk hk' hr).symm
  · rintro rfl
    exact newLine_matches

theorem countP_blanks_zero {k' : List Char} (b : Nat) :
    (List.replicate b ([] : List Char)).countP (fun l => lstarts l (k' ++ ['='])) = 0 := by
  rw [List.countP_eq_zero]
  intro a ha
  rw [List.eq_of_mem_replicate ha]
  simp [lstarts_nil_false (p := k' ++ ['=']) (by simp)]

theorem countP_dropTrailingBlanks (L : List (List Char)) (k' : List Char) :
    (dropTrailingBlanks L).countP (fun l => lstarts l (k' ++ ['='])) =
      L.countP (fun l => lstarts l (k' ++ ['='])) := by
  obtain ⟨b, hdec⟩ := dropTrailingBlanks_spec L
  conv_rhs => rw [hdec]
  rw [List.countP_append, countP_blanks_zero]
  omega

theorem upsert_count_le (f k v k' : List Char)
    (hkn : '\n' ∉ k) (hvn : '\n' ∉ v) (hvr : '\r' ∉ v)
    (hke : '=' ∉ k) (hk'e : '=' ∉ k')
    (hf : ∀ l ∈ splitLines f, l.getLast? ≠ some '\r')
    (hcount : countKeyLines f k' ≤ 1) :
    countKeyLines (upsertDotenvVarCore f k v) k' ≤ 1 := by
  have hblank : lstarts [] (k' ++ ['=']) = false := lstarts_nil_false (by simp)
  cases hrf : replaceFirst (k ++ ['=']) (k ++ '=' :: v) (upsertLinesOf f) with
  | some L2 =>
    obtain ⟨hgv, hgs⟩ := upsert_replace_eq hkn hvn hvr hf hrf
    have hfe : f ≠ [] := by
      intro h0
      rw [h0] at hrf
      simp [upsertLinesOf, replaceFirst] at hrf
    rw [upsertLinesOf_of_ne_nil hfe] at hrf
    obtain ⟨A, l0, B, hLn, hL2, hAnm, hl0⟩ := replaceFirst_some_spec hrf
    have hout : countKeyLines (upsertDotenvVarCore f k v) k' =
        L2.countP (fun l => lstarts l (k' ++ ['='])) := by
      rw [countKeyLines, hgs]
      by_cases hlast : L2.getLast? = some []
      · rw [if_pos hlast, List.countP_append, countP_dropTrailingBlanks]
        simp [List.countP_cons, hblank]
      · rw [if_neg hlast]
    have hin : countKeyLines f k' =
        A.countP (fun l => lstarts l (k' ++ ['='])) +
        ((l0 :: B).countP (fun l => lstarts l (k' ++ ['=']))) := by
      rw [countKeyLines, hLn, List.countP_append]
    rw [hout, hL2, List.countP_append, List.countP_cons]
    by_cases hkk : k' = k
    · subst hkk
      have hA0 : A.countP (fun l => lstarts l (k' ++ ['='])) = 0 := by
        rw [List.countP_eq_zero]
        intro a ha
        simp [hAnm a ha]
      have hB0 : B.countP (fun l => lstarts l (k' ++ ['='])) = 0 := by
        have h2 := hcount
        rw [hin, hA0] at h2
        have hsplit : (l0 :: B).countP (fun l => lstarts l (k' ++ ['='])) =
            B.countP (fun l => lstarts l (k' ++ ['='])) + 1 := by
          rw [List.countP_cons, hl0]
          simp
        rw [hsplit] at h2
        omega
      rw [hA0, hB0]
      simp [newLine_matches]
    · rw [if_neg (by simp [newLine_matches_iff hke hk'e, hkk])]
      have := hcount
      rw [hin, List.countP_cons] at this
      omega
  | none =>
    obtain ⟨hgv, hgs⟩ := upsert_append_eq hkn hvn hvr hf hrf
    have hnm : ∀ l ∈ upsertLinesOf f, lstarts l (k ++ ['=']) = false :=
      replaceFirst_none_iff.mp hrf
    have hlc : (upsertLinesOf f).countP (fun l => lstarts l (k' ++ ['='])) =
        countKeyLines f k' := by
      rw [countKeyLines, upsertLinesOf]
      by_cases hfe : f = []
      · subst hfe
        rw [if_pos rfl]
        simp [splitLines, List.countP_cons, hblank]
      · rw [if_neg hfe]
    have hout : countKeyLines (upsertDotenvVarCore f k v) k' =
        (upsertLinesOf f).countP (fun l => lstarts l (k' ++ ['='])) +
        (if lstarts (k ++ '=' :: v) (k' ++ ['=']) then 1 else 0) := by
      rw [countKeyLines, hgs, appendNewLine]
      by_cases hc : upsertLinesOf f ≠ [] ∧ (upsertLinesOf f).getLast? ≠ some []
      · rw [if_pos hc]
        rw [show upsertLinesOf f ++ [[], k ++ '=' :: v] =
          upsertLinesOf f ++ [([] : List Char)] ++ [k ++ '=' :: v] by simp]
        rw [List.countP_append, List.countP_append]
        simp [List.countP_cons, hblank]
      · rw [if_neg hc, List.countP_append]
        simp [List.countP_cons]
    rw [hout, hlc]
    by_cases hkk : k' = k
    · subst hkk
      have h0 : countKeyLines f k' = 0 := by
        rw [countKeyLines, List.countP_eq_zero]
        intro a ha
        by_cases hfe : f = []
        · subst hfe
          rcases (by simpa [splitLines] using ha : a = []) with rfl
          simp [hblank]
        · have := hnm a (by rw [upsertLinesOf_of_ne_nil hfe]; exact ha)
          simp [this]
      rw [h0]
      split <;> omega
    · rw [if_neg (by simp [newLine_matches_iff hke hk'e, hkk])]
      omega

theorem lstarts_ne_nil {l p : List Char} (hp : p ≠ []) (h : lstarts l p = true) :
    l ≠ [] := by
  obtain ⟨r, rfl⟩ := lstarts_iff.mp h
  simp [hp]

theorem dropWhile_head_not {α : Type} {p : α → Bool} {l : List α} {d : α} {ds : List α}
    (h : l.dropWhile p = d :: ds) : p d = false := by
  induction l with
  | nil => simp at h
  | cons x xs ih =>
    rw [List.dropWhile_cons] at h
    by_cases hx : p x = true
    · rw [if_pos hx] at h
      exact ih h
    · rw [if_neg hx] at h
      rcases (List.cons.injEq _ _ _ _ ▸ h).1 with rfl
      exact Bool.eq_false_iff.mpr hx

theorem collapseNl_not_two_nl (s : List Char) :
    lstarts (collapseNl s).reverse ['\n', '\n'] = false := by
  by_cases h : s.getLast? = some '\n'
  · rw [collapseNl, if_pos h, List.reverse_append]
    rw [List.reverse_reverse]
    show lstarts ('\n' :: s.reverse.dropWhile (fun c => c = '\n')) ['\n', '\n'] = false
    rw [lstarts]
    cases hD : s.reverse.dropWhile (fun c => c = '\n') with
    | nil => simp [lstarts]
    | cons d ds =>
      have hd := dropWhile_head_not hD
      simp only [decide_eq_false_iff_not] at hd
      simp [lstarts, hd]
  · rw [collapseNl, if_neg h]
    cases hr : s.reverse with
    | nil => simp [lstarts]
    | cons c cs =>
      have hc : c ≠ '\n' := by
        intro rfl2
        apply h
        rw [← List.head?_reverse, hr, rfl2]
        rfl
      simp [lstarts, hc]

theorem splitLines_eq_single_blank {t : List Char} (h : splitLines t = [[]]) :
    t = [] := by
  induction t using splitLines.induct with
  | case1 => rfl
  | case2 t' ih =>
    rw [splitLines] at h
    exact absurd ((List.cons.injEq _ _ _ _ ▸ h).2) (splitLines_ne_nil t')
  | case3 t' ih =>
    rw [splitLines] at h
    exact absurd ((List.cons.injEq _ _ _ _ ▸ h).2) (splitLines_ne_nil t')
  | case4 c t' h1 h2 ih =>
    rw [splitLines_cons c t' h1 h2] at h
    cases hs : splitLines t' with
    | nil => exact absurd hs (splitLines_ne_nil t')
    | cons l ls =>
      rw [hs, consHead] at h
      have := (List.cons.injEq _ _ _ _ ▸ h).1
      simp at this

theorem splitLines_last_blank_iff {s : List Char} (hs : s ≠ []) :
    (splitLines s).getLast? = some [] ↔ s.getLast? = some '\n' := by
  induction s using splitLines.induct with
  | case1 => exact absurd rfl hs
  | case2 t ih =>
    by_cases ht : t = []
    · subst ht; decide
    · rw [splitLines]
      obtain ⟨x, xs, hxt⟩ := List.exists_cons_of_ne_nil (splitLines_ne_nil t)
      obtain ⟨y, ys, rfl⟩ := List.exists_cons_of_ne_nil ht
      rw [hxt, List.getLast?_cons_cons, ← hxt, List.getLast?_cons_cons]
      exact ih ht
  | case3 t ih =>
    by_cases ht : t = []
    · subst ht; decide
    · rw [splitLines]
      obtain ⟨x, xs, hxt⟩ := List.exists_cons_of_ne_nil (splitLines_ne_nil t)
      obtain ⟨y, ys, rfl⟩ := List.exists_cons_of_ne_nil ht
      rw [hxt, List.getLast?_cons_cons, ← hxt, List.getLast?_cons_cons,
        List.getLast?_cons_cons]
      exact ih ht
  | case4 c t h1 h2 ih =>
    rw [splitLines_cons c t h1 h2]
    by_cases ht : t = []
    · subst ht
      show (consHead c [[]]).getLast? = some [] ↔ _
      rw [consHead]
      constructor
      · intro hx
        simp at hx
      · intro hx
        simp at hx
        exact absurd hx (fun hc => h1 hc)
    · obtain ⟨x, xs, hxt⟩ := List.exists_cons_of_ne_nil (splitLines_ne_nil t)
      obtain ⟨y, ys, rfl⟩ := List.exists_cons_of_ne_nil ht
      rw [hxt, consHead, List.getLast?_cons_cons]
      cases hxs : xs with
      | nil =>
        subst hxs
        constructor
        · intro hx
          simp at hx
        · intro hx
          have h3 := (ih ht).mpr hx
          rw [hxt] at h3
          simp at h3
          subst h3
          exact absurd (splitLines_eq_single_blank hxt) ht
      | cons z zs =>
        subst hxs
        rw [List.getLast?_cons_cons]
        have e1 : (x :: z :: zs).getLast? = (z :: zs).getLast? := List.getLast?_cons_cons
        rw [← e1, ← hxt]
        exact ih ht

theorem filter_dropTrailingBlanks (L : List (List Char)) :
    (dropTrailingBlanks L).filter (fun l => l ≠ []) = L.filter (fun l => l ≠ []) := by
  obtain ⟨b, hdec⟩ := dropTrailingBlanks_spec L
  conv_rhs => rw [hdec]
  rw [List.filter_append]
  have : (List.replicate b ([] : List Char)).filter (fun l => l ≠ []) = [] := by
    rw [List.filter_eq_nil_iff]
    intro a ha
    simp [List.eq_of_mem_replicate ha]
  rw [this, List.append_nil]

theorem getLast?_append_cons_blank_iff {A B : List (List Char)} {x y : List Char}
    (hx : x ≠ []) (hy : y ≠ []) :
    ((A ++ x :: B).getLast? = some ([] : List Char)) ↔
      ((A ++ y :: B).getLast? = some []) := by
  cases B with
  | nil =>
    rw [getLast?_append_right A [x] (by simp), getLast?_append_right A [y] (by simp)]
    simp [hx, hy]
  | cons b bs =>
    rw [getLast?_append_right A (x :: b :: bs) (by simp),
      getLast?_append_right A (y :: b :: bs) (by simp),
      List.getLast?_cons_cons, List.getLast?_cons_cons]

theorem hasKeyLine_false_iff {f k v : List Char} :
    hasKeyLine f k = false ↔
      replaceFirst (k ++ ['=']) (k ++ '=' :: v) (upsertLinesOf f) = none := by
  rw [hasKeyLine, replaceFirst_none_iff, List.any_eq_false]
  constructor <;> intro h l hl <;> have h2 := h l hl <;> simpa using h2

/-- Claim C7, counterexample: as stated over all file contents, keys and
values, upsert is neither idempotent nor duplicate-free. With contents
"B=1", key "K" and value "x\nB=2" (a value containing a newline), the
first upsert yields "B=1\n\nK=x\nB=2", which contains two lines assigning
the key B although the input contained one, and a second identical upsert
appends another copy of "B=2" instead of being a no-op. -/
theorem claim_C7_counterexample :
    upsertDotenvVar (upsertDotenvVar "B=1" "K" "x\nB=2") "K" "x\nB=2" ≠
      upsertDotenvVar "B=1" "K" "x\nB=2" ∧
    upsertDotenvVar "B=1" "K" "x\nB=2" = "B=1\n\nK=x\nB=2" ∧
    countKeyLines (upsertDotenvVar "B=1" "K" "x\nB=2").data "B".data = 2 ∧
    countKeyLines "B=1".data "B".data = 1 := by
  refine ⟨?_, by decide, by decide, by decide⟩
  decide

/-- Claim C7 (amended): environment-file upsert is idempotent and
duplicate-free for line-shaped inputs: whenever the key k and the value v
contain no LF, the value no CR, no line of the file ends in a bare CR, and
the keys k and k' contain no equals sign, then
upsert(upsert(f,k,v),k,v) equals upsert(f,k,v) byte for byte, and if at
most one line of f assigns k', the upserted result still has at most one
line assigning k'. -/
theorem claim_C7_amended (f k v k' : String)
    (hkn : '\n' ∉ k.data) (hvn : '\n' ∉ v.data) (hvr : '\r' ∉ v.data)
    (hke : '=' ∉ k.data) (hk'e : '=' ∉ k'.data)
    (hf : ∀ l ∈ splitLines f.data, l.getLast? ≠ some '\r')
    (hcount : countKeyLines f.data k'.data ≤ 1) :
    upsertDotenvVar (upsertDotenvVar f k v) k v = upsertDotenvVar f k v ∧
    countKeyLines (upsertDotenvVar f k v).data k'.data ≤ 1 := by
  constructor
  · show String.mk (upsertDotenvVarCore (upsertDotenvVarCore f.data k.data v.data) k.data v.data) =
      String.mk (upsertDotenvVarCore f.data k.data v.data)
    exact congrArg String.mk (upsert_idem_core f.data k.data v.data hkn hvn hvr hf)
  · exact upsert_count_le f.data k.data v.data k'.data hkn hvn hvr hke hk'e hf hcount

/-- Claim C7, witness: the amended idempotence and duplicate-freedom hold
at a concrete file, key and value. -/
theorem claim_C7_witness :
    upsertDotenvVar (upsertDotenvVar "A=1\nK=old\n" "K" "V") "K" "V" =
      upsertDotenvVar "A=1\nK=old\n" "K" "V" ∧
    countKeyLines (upsertDotenvVar "A=1\nK=old\n" "K" "V").data "A".data ≤ 1 :=
  claim_C7_amended "A=1\nK=old\n" "K" "V" "A" (by decide) (by decide) (by decide)
    (by decide) (by decide) (by decide) (by decide)

/-- Claim C8, counterexample: the upserted file does not always end with a
trailing newline. Upserting into an empty file yields "K=V", whose final
character is not a newline; likewise upserting a fresh key into "A=1"
yields "A=1\n\nK=V" with no trailing newline. -/
theorem claim_C8_counterexample :
    upsertDotenvVar "" "K" "V" = "K=V" ∧
    (upsertDotenvVar "" "K" "V").data.getLast? ≠ some '\n' ∧
    (upsertDotenvVar "A=1" "K" "V").data.getLast? ≠ some '\n' := by
  refine ⟨by decide, by decide, by decide⟩

/-- Claim C8 (amended): for keys and values without line-break characters
and files none of whose lines ends in a bare CR: the upserted text never
ends in two newlines; it ends in exactly one trailing newline iff the key
was already present and the input ended with a line break (the append path
produces no trailing newline); when the key is present, the non-blank
lines of the result are those of the input with the first matching line
replaced in place (order preserved); when the key is absent, the result's
lines are the input's lines with the new line appended, preceded by a
blank separator exactly when the file is non-empty and its last line is
non-blank. -/
theorem claim_C8_amended (f k v : List Char)
    (hkn : '\n' ∉ k) (hvn : '\n' ∉ v) (hvr : '\r' ∉ v)
    (hf : ∀ l ∈ splitLines f, l.getLast? ≠ some '\r') :
    lstarts (upsertDotenvVarCore f k v).reverse ['\n', '\n'] = false ∧
    ((upsertDotenvVarCore f k v).getLast? = some '\n' ↔
      (hasKeyLine f k = true ∧ f.getLast? = some '\n')) ∧
    (hasKeyLine f k = true →
      replaceFirst (k ++ ['=']) (k ++ '=' :: v) (nonblankLines f) =
        some (nonblankLines (upsertDotenvVarCore f k v))) ∧
    (hasKeyLine f k = false →
      splitLines (upsertDotenvVarCore f k v) =
        appendNewLine (upsertLinesOf f) (k ++ '=' :: v)) := by
  cases hrf : replaceFirst (k ++ ['=']) (k ++ '=' :: v) (upsertLinesOf f) with
  | some L2 =>
    obtain ⟨hno_nl, hno_cr, hnl_mem, hL2ne⟩ := replace_case_facts hkn hvn hvr hf hrf
    obtain ⟨hgv, hgs⟩ := upsert_replace_eq hkn hvn hvr hf hrf
    have hval : upsertDotenvVarCore f k v = collapseNl (joinLines L2) := by
      rw [upsertDotenvVarCore, hrf]
    have hfe : f ≠ [] := by
      intro h0
      rw [h0] at hrf
      simp [upsertLinesOf, replaceFirst] at hrf
    rw [upsertLinesOf_of_ne_nil hfe] at hrf
    obtain ⟨A, l0, B, hLn, hL2, hAnm, hl0⟩ := replaceFirst_some_spec hrf
    have hl0ne : l0 ≠ [] := lstarts_ne_nil (by simp) hl0
    have hktrue : hasKeyLine f k = true := by
      rw [hasKeyLine, List.any_eq_true]
      exact ⟨l0, by rw [upsertLinesOf_of_ne_nil hfe, hLn]; simp, by simp [hl0]⟩
    have hlast_iff : (L2.getLast? = some []) ↔ f.getLast? = some '\n' := by
      rw [hL2, getLast?_append_cons_blank_iff (x := k ++ '=' :: v) (y := l0) (by simp) hl0ne,
        ← hLn, splitLines_last_blank_iff hfe]
    refine ⟨by rw [hval]; exact collapseNl_not_two_nl _, ?_, ?_, ?_⟩
    · by_cases hlast : L2.getLast? = some []
      · rw [if_pos hlast] at hgv
        have hD : dropTrailingBlanks L2 ≠ [] :=
          dropTrailingBlanks_ne_nil_of_mem hnl_mem (by simp)
        have he : (upsertDotenvVarCore f k v).getLast? = some '\n' := by
          rw [hgv, joinLines_append_singleton hD []]
          rw [getLast?_append_right _ ['\n'] (by simp)]
          rfl
        simp [he, hktrue, hlast_iff.mp hlast]
      · rw [if_neg hlast] at hgv
        obtain ⟨m, hm⟩ : ∃ m, L2.getLast? = some m := by
          cases hg0 : L2.getLast? with
          | none => exact absurd (List.getLast?_eq_none_iff.mp hg0) hL2ne
          | some m => exact ⟨m, rfl⟩
        have hmne : m ≠ [] := by
          intro h0; rw [h0] at hm; exact hlast hm
        have he : (upsertDotenvVarCore f k v).getLast? ≠ some '\n' := by
          rw [hgv, joinLines_getLast_of_last_ne_blank hm hmne]
          intro hx
          exact hno_nl m (mem_of_getLast?H hm) (mem_of_getLast?H hx)
        have hrhs : ¬(f.getLast? = some '\n') := by
          intro hx
          exact hlast (hlast_iff.mpr hx)
        simp [he, hrhs]
    · intro _
      have hnb_f : nonblankLines f =
          A.filter (fun l => l ≠ []) ++ l0 :: B.filter (fun l => l ≠ []) := by
        rw [nonblankLines, hLn, List.filter_append]
        congr 1
        rw [List.filter_cons, if_pos (by simpa using hl0ne)]
      have hnb_r : nonblankLines (upsertDotenvVarCore f k v) =
          A.filter (fun l => l ≠ []) ++ (k ++ '=' :: v) :: B.filter (fun l => l ≠ []) := by
        rw [nonblankLines, hgs]
        have hfL2 : L2.filter (fun l => l ≠ []) =
            A.filter (fun l => l ≠ []) ++ (k ++ '=' :: v) :: B.filter (fun l => l ≠ []) := by
          rw [hL2, List.filter_append]
          congr 1
          rw [List.filter_cons, if_pos (by simp)]
        by_cases hlast : L2.getLast? = some []
        · rw [if_pos hlast, List.filter_append, filter_dropTrailingBlanks, hfL2]
          simp
        · rw [if_neg hlast, hfL2]
      rw [hnb_f, hnb_r]
      exact replaceFirst_apply _ _ _
        (fun a ha => hAnm a (List.mem_of_mem_filter ha)) hl0
    · intro hfalse
      rw [hktrue] at hfalse
      exact absurd hfalse (by simp)
  | none =>
    have hkfalse : hasKeyLine f k = false := (hasKeyLine_false_iff (v := v)).mpr hrf
    obtain ⟨hgv, hgs⟩ := upsert_append_eq hkn hvn hvr hf hrf
    have hval : upsertDotenvVarCore f k v =
        collapseNl (joinLines (appendNewLine (upsertLinesOf f) (k ++ '=' :: v))) := by
      rw [upsertDotenvVarCore, hrf]
    obtain ⟨S, hS, hA⟩ : ∃ S, (S = [] ∨ S = [[]]) ∧
        appendNewLine (upsertLinesOf f) (k ++ '=' :: v) =
          (upsertLinesOf f ++ S) ++ [k ++ '=' :: v] := by
      rw [appendNewLine]
      by_cases hc : upsertLinesOf f ≠ [] ∧ (upsertLinesOf f).getLast? ≠ some []
      · exact ⟨[[]], Or.inr rfl, by rw [if_pos hc]; simp⟩
      · exact ⟨[], Or.inl rfl, by rw [if_neg hc]; simp⟩
    have hlast2 : (appendNewLine (upsertLinesOf f) (k ++ '=' :: v)).getLast? =
        some (k ++ '=' :: v) := by
      rw [hA, getLast?_append_right _ _ (by simp)]; rfl
    have he : (upsertDotenvVarCore f k v).getLast? ≠ some '\n' := by
      rw [hgv, joinLines_getLast_of_last_ne_blank hlast2 (by simp)]
      intro hx
      exact newLine_no_nl hkn hvn (mem_of_getLast?H hx)
    refine ⟨by rw [hval]; exact collapseNl_not_two_nl _, by simp [he, hkfalse], ?_, fun _ => hgs⟩
    intro htrue
    rw [hkfalse] at htrue
    exact absurd htrue (by simp)

/-- Claim C8, witness: the amended characterization at a concrete file with
the key present (trailing newline preserved, first match replaced) and the
derived consequences hold. -/
theorem claim_C8_witness :
    lstarts (upsertDotenvVarCore ("A=1\nK=old\n").data ("K").data ("V").data).reverse
      ['\n', '\n'] = false ∧
    ((upsertDotenvVarCore ("A=1\nK=old\n").data ("K").data ("V").data).getLast? =
        some '\n' ↔
      (hasKeyLine ("A=1\nK=old\n").data ("K").data = true ∧
        ("A=1\nK=old\n").data.getLast? = some '\n')) ∧
    (hasKeyLine ("A=1\nK=old\n").data ("K").data = true →
      replaceFirst (("K").data ++ ['=']) (("K").data ++ '=' :: ("V").data)
          (nonblankLines ("A=1\nK=old\n").data) =
        some (nonblankLines (upsertDotenvVarCore ("A=1\nK=old\n").data ("K").data ("V").data))) ∧
    (hasKeyLine ("A=1\nK=old\n").data ("K").data = false →
      splitLines (upsertDotenvVarCore ("A=1\nK=old\n").data ("K").data ("V").data) =
        appendNewLine (upsertLinesOf ("A=1\nK=old\n").data)
          (("K").data ++ '=' :: ("V").data)) :=
  claim_C8_amended ("A=1\nK=old\n").data ("K").data ("V").data
    (by decide) (by decide) (by decide) (by decide)

theorem trimL_eq_rstripL (s : List Char) : trimL s = rstripL (s.dropWhile isJsWs) := rfl

theorem dropWhile_idem {α : Type} (p : α → Bool) (l : List α) :
    (l.dropWhile p).dropWhile p = l.dropWhile p := by
  apply dropWhile_head_false
  intro x hx
  cases hD : l.dropWhile p with
  | nil => rw [hD] at hx; simp at hx
  | cons d ds =>
    rw [hD] at hx
    rcases Option.some.injEq _ _ ▸ hx with rfl
    exact dropWhile_head_not hD

theorem rstripL_idem (l : List Char) : rstripL (rstripL l) = rstripL l := by
  rw [rstripL, rstripL, List.reverse_reverse, dropWhile_idem]

theorem rstripL_eq_nil_iff {l : List Char} : rstripL l = [] ↔ ∀ x ∈ l, isJsWs x := by
  rw [rstripL]
  constructor
  · intro h x hx
    have h2 : l.reverse.dropWhile isJsWs = [] := by
      have := congrArg List.reverse h
      simpa using this
    exact List.dropWhile_eq_nil_iff.mp h2 x (List.mem_reverse.mpr hx)
  · intro h
    have h2 : l.reverse.dropWhile isJsWs = [] :=
      List.dropWhile_eq_nil_iff.mpr (fun x hx => h x (List.mem_reverse.mp hx))
    rw [h2]
    rfl

theorem rstripL_append_of_ne_nil {x y : List Char} (hy : rstripL y ≠ []) :
    rstripL (x ++ y) = x ++ rstripL y := by
  obtain ⟨d, ds, hD⟩ : ∃ d ds, y.reverse.dropWhile isJsWs = d :: ds := by
    cases hD : y.reverse.dropWhile isJsWs with
    | nil => exact absurd (by rw [rstripL, hD]; rfl) hy
    | cons d ds => exact ⟨d, ds, rfl⟩
  have hdec : y.reverse = y.reverse.takeWhile isJsWs ++ d :: ds := by
    conv_lhs => rw [← List.takeWhile_append_dropWhile (p := isJsWs) (l := y.reverse)]
    rw [hD]
  rw [rstripL, List.reverse_append, hdec, List.append_assoc, List.cons_append,
    dropWhile_append_stop _ _ _ d (dropWhile_head_not hD)]
  have htw : (y.reverse.takeWhile isJsWs).dropWhile isJsWs = [] :=
    List.dropWhile_eq_nil_iff.mpr (fun a ha => List.mem_takeWhile_imp ha)
  rw [htw, List.nil_append, List.reverse_cons, List.reverse_append]
  rw [rstripL, hD, List.reverse_cons]
  simp

theorem rstripL_cons_of_not_ws {d : Char} {ds : List Char} (hd : isJsWs d = false) :
    ∃ Z, rstripL (d :: ds) = d :: Z := by
  have hne : rstripL (d :: ds) ≠ [] := by
    intro h0
    have := rstripL_eq_nil_iff.mp h0 d (by simp)
    rw [hd] at this
    exact absurd this (by simp)
  have hpre : (d :: ds).reverse.dropWhile isJsWs <:+ (d :: ds).reverse :=
    List.dropWhile_suffix _
  obtain ⟨w, hw⟩ := hpre
  have h2 : rstripL (d :: ds) ++ w.reverse = d :: ds := by
    rw [rstripL, ← List.reverse_append, hw, List.reverse_reverse]
  cases hR : rstripL (d :: ds) with
  | nil => exact absurd hR hne
  | cons a as =>
    rw [hR, List.cons_append] at h2
    refine ⟨as, ?_⟩
    have ha : a = d := by
      have h3 := congrArg List.head? h2
      simpa using h3
    rw [ha]

theorem trimL_rstripL (rest : List Char) : trimL (rstripL rest) = trimL rest := by
  by_cases hl : rest.dropWhile isJsWs = []
  · have hall : ∀ x ∈ rest, isJsWs x := List.dropWhile_eq_nil_iff.mp hl
    have h1 : rstripL rest = [] := rstripL_eq_nil_iff.mpr hall
    rw [h1]
    rw [trimL_eq_rstripL rest, hl]
    rfl
  · obtain ⟨d, ds, hD⟩ : ∃ d ds, rest.dropWhile isJsWs = d :: ds := by
      cases hD : rest.dropWhile isJsWs with
      | nil => exact absurd hD hl
      | cons d ds => exact ⟨d, ds, rfl⟩
    have hd : isJsWs d = false := dropWhile_head_not hD
    have hdec : rest = rest.takeWhile isJsWs ++ d :: ds := by
      conv_lhs => rw [← List.takeWhile_append_dropWhile (p := isJsWs) (l := rest)]
      rw [hD]
    obtain ⟨Z, hZ⟩ := @rstripL_cons_of_not_ws d ds hd
    have hR : rstripL rest = rest.takeWhile isJsWs ++ (d :: Z) := by
      conv_lhs => rw [hdec]
      rw [rstripL_append_of_ne_nil (by rw [hZ]; simp), hZ]
    have hstep : ∀ y : List Char, (rest.takeWhile isJsWs ++ d :: y).dropWhile isJsWs =
        d :: y := by
      intro y
      rw [dropWhile_append_stop _ _ _ d hd,
        List.dropWhile_eq_nil_iff.mpr (fun a ha => List.mem_takeWhile_imp ha),
        List.nil_append]
    rw [trimL_eq_rstripL, trimL_eq_rstripL, hR, hstep, hD, ← hZ, rstripL_idem, hZ]

theorem dropWhile_eq_self_of_length {α : Type} {p : α → Bool} {l : List α}
    (h : (l.dropWhile p).length = l.length) : l.dropWhile p = l :=
  (List.dropWhile_suffix p).eq_of_length h

theorem length_dropWhile_le' {α : Type} (p : α → Bool) (l : List α) :
    (l.dropWhile p).length ≤ l.length :=
  (List.dropWhile_suffix p).sublist.length_le

theorem trimL_self_parts {v : List Char} (h : trimL v = v) :
    v.dropWhile isJsWs = v ∧ v.reverse.dropWhile isJsWs = v.reverse := by
  have hlen : (trimL v).length = v.length := congrArg List.length h
  have e1 : (trimL v).length = ((v.dropWhile isJsWs).reverse.dropWhile isJsWs).length := by
    rw [trimL, List.length_reverse]
  have le1 : ((v.dropWhile isJsWs).reverse.dropWhile isJsWs).length ≤
      (v.dropWhile isJsWs).length := by
    have := length_dropWhile_le' isJsWs (v.dropWhile isJsWs).reverse
    simpa using this
  have le2 : (v.dropWhile isJsWs).length ≤ v.length := length_dropWhile_le' _ _
  have h1 : v.dropWhile isJsWs = v := dropWhile_eq_self_of_length (by omega)
  refine ⟨h1, ?_⟩
  apply dropWhile_eq_self_of_length
  rw [e1, h1] at hlen
  rw [List.length_reverse]
  omega

theorem dropWhile_eq_self_head {α : Type} {p : α → Bool} {l : List α}
    (h : l.dropWhile p = l) {c : α} (hc : l.head? = some c) : p c = false := by
  cases l with
  | nil => simp at hc
  | cons x xs =>
    have hcx : x = c := by simpa using hc
    subst hcx
    by_cases hp : p x = true
    · rw [List.dropWhile_cons, if_pos hp] at h
      have h2 := congrArg List.length h
      have h3 := length_dropWhile_le' p xs
      simp at h2
      omega
    · exact Bool.eq_false_iff.mpr hp

theorem getLast_not_ws_of_trim_self {v : List Char} (h : trimL v = v) {c : Char}
    (hc : v.getLast? = some c) : isJsWs c = false := by
  have h2 := (trimL_self_parts h).2
  exact dropWhile_eq_self_head h2 (by rw [List.head?_reverse]; exact hc)

theorem trimL_eq_self_of_no_ws {l : List Char} (h : ∀ c ∈ l, isJsWs c = false) :
    trimL l = l := by
  have h1 : l.dropWhile isJsWs = l :=
    dropWhile_head_false _ _ (fun x hx => h x (List.mem_of_mem_head? hx))
  have h2 : l.reverse.dropWhile isJsWs = l.reverse :=
    dropWhile_head_false _ _
      (fun x hx => h x (List.mem_reverse.mp (List.mem_of_mem_head? hx)))
  rw [trimL, h1, h2, List.reverse_reverse]

theorem rstripL_cons_eq {c : Char} {rest : List Char} (hc : isJsWs c = false) :
    rstripL (c :: rest) = c :: rstripL rest := by
  by_cases h : rstripL rest = []
  · have hD : rest.reverse.dropWhile isJsWs = [] := by
      have h2 := congrArg List.reverse h
      rw [rstripL] at h2
      simpa using h2
    rw [rstripL, List.reverse_cons,
      dropWhile_append_stop _ _ _ c hc, hD, List.nil_append, h]
    rfl
  · rw [show c :: rest = [c] ++ rest from rfl, rstripL_append_of_ne_nil h]
    rfl

theorem trimL_key_append {k rest : List Char} (hkne : k ≠ [])
    (hkws : ∀ c ∈ k, isJsWs c = false) :
    trimL (k ++ '=' :: rest) = k ++ '=' :: rstripL rest := by
  obtain ⟨c, k', rfl⟩ := List.exists_cons_of_ne_nil hkne
  have h1 : ((c :: k') ++ '=' :: rest).dropWhile isJsWs = (c :: k') ++ '=' :: rest := by
    rw [List.cons_append, List.dropWhile_cons, if_neg (by simp [hkws c (by simp)])]
  rw [trimL_eq_rstripL, h1]
  have h2 : rstripL ('=' :: rest) = '=' :: rstripL rest :=
    rstripL_cons_eq (by simp [isJsWs])
  rw [rstripL_append_of_ne_nil (by rw [h2]; simp), h2]

theorem findIdx_eq_of_key_aux {rest : List Char} (k : List Char) (hk : '=' ∉ k)
    (i : Nat) :
    List.findIdx? (fun c => c = '=') (k ++ '=' :: rest) i = some (k.length + i) := by
  induction k generalizing i with
  | nil => simp [List.findIdx?]
  | cons c ks ih =>
    have hc : c ≠ '=' := fun h => hk (by simp [h])
    rw [List.cons_append, List.findIdx?, if_neg (by simp [hc]),
      ih (fun h => hk (by simp [h])) (i + 1)]
    congr 1
    simp
    omega

theorem findIdx_eq_of_key {k rest : List Char} (hk : '=' ∉ k) :
    (k ++ '=' :: rest).findIdx? (fun c => c = '=') = some k.length := by
  have := @findIdx_eq_of_key_aux rest k hk 0
  simpa using this

theorem parseLine_key_line {k rest : List Char} (hkne : k ≠ [])
    (hkeq : '=' ∉ k) (hkh : '#' ∉ k) (hkws : ∀ c ∈ k, isJsWs c = false) :
    parseLine (k ++ '=' :: rest) = some (k, stripQuotes (trimL rest)) := by
  obtain ⟨c, k', hck⟩ := List.exists_cons_of_ne_nil hkne
  have htrim : trimL (k ++ '=' :: rest) = k ++ '=' :: rstripL rest :=
    trimL_key_append hkne hkws
  have hne2 : ¬(k ++ '=' :: rstripL rest = []) := by simp
  have hhash : ¬((k ++ '=' :: rstripL rest).head? = some '#') := by
    rw [hck]
    intro hx
    simp at hx
    exact hkh (by rw [hck]; simp [hx])
  have hidx : (k ++ '=' :: rstripL rest).findIdx? (fun c => c = '=') = some k.length :=
    findIdx_eq_of_key hkeq
  have htake : (k ++ '=' :: rstripL rest).take k.length = k :=
    @List.take_left _ k ('=' :: rstripL rest)
  have hdrop : (k ++ '=' :: rstripL rest).drop (k.length + 1) = rstripL rest := by
    rw [show k ++ '=' :: rstripL rest = (k ++ ['=']) ++ rstripL rest by simp]
    have h9 := @List.drop_left _ (k ++ ['=']) (rstripL rest)
    simp at h9
    simp [h9]
  rw [parseLine]
  simp only [htrim, hidx, if_neg hne2, if_neg hhash, htake, hdrop]
  rw [trimL_eq_self_of_no_ws hkws, if_neg hkne, trimL_rstripL]

theorem parseLine_nil : parseLine [] = none := rfl

theorem parseLine_congr_trim {a b : List Char} (h : trimL a = trimL b) :
    parseLine a = parseLine b := by
  unfold parseLine
  rw [h]

theorem rstripL_append_ws {y : List Char} {c : Char} (hc : isJsWs c = true) :
    rstripL (y ++ [c]) = rstripL y := by
  rw [rstripL, rstripL, List.reverse_append]
  simp [List.dropWhile_cons, hc]

theorem trimL_append_ws {l : List Char} {c : Char} (hc : isJsWs c = true) :
    trimL (l ++ [c]) = trimL l := by
  rw [trimL_eq_rstripL, trimL_eq_rstripL]
  by_cases h : l.dropWhile isJsWs = []
  · have hall : ∀ x ∈ l, isJsWs x := List.dropWhile_eq_nil_iff.mp h
    have h2 : (l ++ [c]).dropWhile isJsWs = [] := by
      rw [List.dropWhile_eq_nil_iff]
      intro x hx
      rcases List.mem_append.mp hx with hx | hx
      · exact hall x hx
      · rcases List.mem_singleton.mp hx with rfl; exact hc
    rw [h, h2]
  · obtain ⟨d, ds, hD⟩ : ∃ d ds, l.dropWhile isJsWs = d :: ds := by
      cases hD : l.dropWhile isJsWs with
      | nil => exact absurd hD h
      | cons d ds => exact ⟨d, ds, rfl⟩
    have hd : isJsWs d = false := dropWhile_head_not hD
    have hdec : l = l.takeWhile isJsWs ++ d :: ds := by
      conv_lhs => rw [← List.takeWhile_append_dropWhile (p := isJsWs) (l := l)]
      rw [hD]
    have h2 : (l ++ [c]).dropWhile isJsWs = (d :: ds) ++ [c] := by
      conv_lhs => rw [hdec]
      rw [List.append_assoc, List.cons_append,
        dropWhile_append_stop _ _ _ d hd,
        List.dropWhile_eq_nil_iff.mpr (fun a ha => List.mem_takeWhile_imp ha)]
      simp
    rw [h2, hD]
    show rstripL (d :: (ds ++ [c])) = rstripL (d :: ds)
    rw [rstripL_cons_eq hd, rstripL_cons_eq hd, rstripL_append_ws hc]

theorem parseLine_dropLastCr (l : List Char) :
    parseLine (dropLastCr l) = parseLine l := by
  rw [dropLastCr]
  by_cases h : l.getLast? = some '\r'
  · rw [if_pos h]
    obtain ⟨B, rfl⟩ := List.getLast?_eq_some_iff.mp h
    rw [List.dropLast_concat]
    exact (parseLine_congr_trim (trimL_append_ws (by simp [isJsWs]))).symm
  · rw [if_neg h]

theorem parsePairs_joinLines {L : List (List Char)} (h : ∀ l ∈ L, '\n' ∉ l) :
    (splitLines (joinLines L)).filterMap parseLine = L.filterMap parseLine := by
  induction L with
  | nil => simp [joinLines, splitLines, parseLine_nil]
  | cons l L' ih =>
    cases L' with
    | nil =>
      rw [joinLines, splitLines_no_nl (h l (by simp))]
    | cons m M =>
      show (splitLines (l ++ '\n' :: joinLines (m :: M))).filterMap parseLine = _
      rw [splitLines_append_nl (h l (by simp)), List.filterMap_cons,
        List.filterMap_cons, parseLine_dropLastCr,
        ih (fun x hx => h x (by simp [hx]))]

theorem parsePairs_collapse_joinLines {L : List (List Char)}
    (h : ∀ l ∈ L, '\n' ∉ l) (hD : dropTrailingBlanks L ≠ []) :
    (splitLines (collapseNl (joinLines L))).filterMap parseLine =
      L.filterMap parseLine := by
  obtain ⟨m, hm⟩ : ∃ m, L.getLast? = some m := by
    cases hg : L.getLast? with
    | none =>
      rw [List.getLast?_eq_none_iff.mp hg] at hD
      exact absurd rfl hD
    | some m => exact ⟨m, rfl⟩
  by_cases hmb : m = []
  · subst hmb
    rw [collapseNl_joinLines_blank hm h hD,
      ← joinLines_append_singleton hD [], parsePairs_joinLines (fun x hx => by
        rcases List.mem_append.mp hx with hx | hx
        · exact h x (mem_dropTrailingBlanks hx)
        · rcases List.mem_singleton.mp hx with rfl; simp)]
    rw [List.filterMap_append]
    simp [parseLine_nil]
    obtain ⟨b, hdec⟩ := dropTrailingBlanks_spec L
    conv_rhs => rw [hdec]
    rw [List.filterMap_append]
    have hrep : (List.replicate b ([] : List Char)).filterMap parseLine = [] := by
      rw [List.filterMap_eq_nil_iff]
      intro a ha
      rw [List.eq_of_mem_replicate ha]
      simp [parseLine_nil]
    rw [hrep, List.append_nil]
  · rw [collapseNl_joinLines_of_last_ne_blank hm hmb (h m (mem_of_getLast?H hm))]
    exact parsePairs_joinLines h

theorem find?_append_of_none {α : Type} {p : α → Bool} {l1 l2 : List α}
    (h : l1.find? p = none) : (l1 ++ l2).find? p = l2.find? p := by
  induction l1 with
  | nil => rfl
  | cons x xs ih =>
    by_cases hx : p x = true
    · rw [List.find?_cons_of_pos _ hx] at h
      simp at h
    · rw [List.find?_cons_of_neg _ hx] at h
      rw [List.cons_append, List.find?_cons_of_neg _ hx]
      exact ih h

theorem envLookup_append_last (P : List (List Char × List Char)) (k v : List Char) :
    envLookup (P ++ [(k, v)]) k = some v := by
  rw [envLookup, List.reverse_append]
  show ((((k, v) :: P.reverse).find? fun p => p.1 = k).map fun p => p.2) = some v
  rw [List.find?_cons_of_pos _ (by simp)]
  rfl

theorem envLookup_mid (PA PB : List (List Char × List Char)) (k v : List Char)
    (h : ∀ p ∈ PB, p.1 ≠ k) :
    envLookup (PA ++ (k, v) :: PB) k = some v := by
  rw [envLookup, List.reverse_append, List.reverse_cons]
  have hnone : PB.reverse.find? (fun p => p.1 = k) = none := by
    rw [List.find?_eq_none]
    intro p hp
    simp [h p (List.mem_reverse.mp hp)]
  rw [List.append_assoc, find?_append_of_none hnone]
  show ((((k, v) :: PA.reverse).find? fun p => p.1 = k).map fun p => p.2) = some v
  rw [List.find?_cons_of_pos _ (by simp)]
  rfl

theorem devStep_mono {s : DevWatchState} {e : DevEvent}
    (h : s.envEnsurerSpawned = true) : (devStep s e).envEnsurerSpawned = true := by
  cases e with
  | data text =>
    show (handleConvexData s text).envEnsurerSpawned = true
    rw [handleConvexData]
    split
    · rw [spawnEnsurerOnce]
      split <;> simp_all
    · exact h
  | timer =>
    show (fallbackTimerFire s).envEnsurerSpawned = true
    rw [fallbackTimerFire]
    split
    · rw [spawnEnsurerOnce]
      split <;> simp_all
    · exact h

theorem runDevEvents_cons (s : DevWatchState) (e : DevEvent) (evs : List DevEvent) :
    runDevEvents s (e :: evs) = runDevEvents (devStep s e) evs := rfl

theorem runDevEvents_mono {s : DevWatchState} {evs : List DevEvent}
    (h : s.envEnsurerSpawned = true) : (runDevEvents s evs).envEnsurerSpawned = true := by
  induction evs generalizing s with
  | nil => exact h
  | cons e rest ih => exact ih (devStep_mono h)

theorem devStep_inv {s : DevWatchState} (e : DevEvent)
    (h1 : s.spawnCount = if s.envEnsurerSpawned then 1 else 0)
    (h2 : s.convexReady = true → s.envEnsurerSpawned = true) :
    ((devStep s e).spawnCount = if (devStep s e).envEnsurerSpawned then 1 else 0) ∧
    ((devStep s e).convexReady = true → (devStep s e).envEnsurerSpawned = true) := by
  cases e <;>
    simp only [devStep, handleConvexData, fallbackTimerFire, spawnEnsurerOnce] <;>
    split_ifs <;> simp_all

theorem runDevEvents_inv {s : DevWatchState} (evs : List DevEvent)
    (h1 : s.spawnCount = if s.envEnsurerSpawned then 1 else 0)
    (h2 : s.convexReady = true → s.envEnsurerSpawned = true) :
    ((runDevEvents s evs).spawnCount =
      if (runDevEvents s evs).envEnsurerSpawned then 1 else 0) ∧
    ((runDevEvents s evs).convexReady = true →
      (runDevEvents s evs).envEnsurerSpawned = true) := by
  induction evs generalizing s with
  | nil => exact ⟨h1, h2⟩
  | cons e rest ih =>
    obtain ⟨h1', h2'⟩ := devStep_inv e h1 h2
    exact ih h1' h2'

theorem devStep_trigger {s : DevWatchState} {e : DevEvent}
    (h2 : s.convexReady = true → s.envEnsurerSpawned = true)
    (ht : isTriggerEvent e = true) : (devStep s e).envEnsurerSpawned = true := by
  cases e with
  | data text =>
    show (handleConvexData s text).envEnsurerSpawned = true
    rw [handleConvexData]
    by_cases hr : s.convexReady = true
    · rw [if_neg (by simp [hr])]
      exact h2 hr
    · rw [if_pos (by simp [Bool.not_eq_true] at hr; simp [hr]; simpa using ht)]
      rw [spawnEnsurerOnce]
      split
      · next hsp => exact hsp
      · rfl
  | timer =>
    show (fallbackTimerFire s).envEnsurerSpawned = true
    rw [fallbackTimerFire]
    split
    · rw [spawnEnsurerOnce]
      split
      · next hsp => exact hsp
      · rfl
    · next hsp => simpa using hsp

/-- Claim C2: the env-sync action is triggered at most once per session.
The envEnsurerSpawned latch is initially unset, is never reset (it stays
set under every further event), the helper is spawned at most once over
any event sequence, and whenever some event fires a trigger (a matching
output chunk or the fallback timer), the helper is spawned exactly once,
regardless of the order and multiplicity of triggers. -/
theorem claim_C2_latch :
    initialDevWatchState.envEnsurerSpawned = false ∧
    (∀ (s : DevWatchState) (evs : List DevEvent), s.envEnsurerSpawned = true →
      (runDevEvents s evs).envEnsurerSpawned = true) ∧
    (∀ evs : List DevEvent, (runDevEvents initialDevWatchState evs).spawnCount ≤ 1) ∧
    (∀ evs : List DevEvent, (∃ e ∈ evs, isTriggerEvent e = true) →
      (runDevEvents initialDevWatchState evs).spawnCount = 1) := by
  have hinv0 : initialDevWatchState.spawnCount =
      if initialDevWatchState.envEnsurerSpawned then 1 else 0 := rfl
  have hready0 : initialDevWatchState.convexReady = true →
      initialDevWatchState.envEnsurerSpawned = true := by intro h; exact h
  refine ⟨rfl, fun s evs h => runDevEvents_mono h, ?_, ?_⟩
  · intro evs
    obtain ⟨h1, _⟩ := runDevEvents_inv evs hinv0 hready0
    rw [h1]
    split <;> omega
  · have key : ∀ (evs : List DevEvent) (s : DevWatchState),
        (s.spawnCount = if s.envEnsurerSpawned then 1 else 0) →
        (s.convexReady = true → s.envEnsurerSpawned = true) →
        (∃ e ∈ evs, isTriggerEvent e = true) →
        (runDevEvents s evs).envEnsurerSpawned = true := by
      intro evs
      induction evs with
      | nil => intro s _ _ h; simp at h
      | cons e rest ih =>
        intro s h1 h2 hex
        by_cases ht : isTriggerEvent e = true
        · rw [runDevEvents_cons]
          exact runDevEvents_mono (devStep_trigger h2 ht)
        · rw [runDevEvents_cons]
          obtain ⟨h1', h2'⟩ := devStep_inv e h1 h2
          rcases hex with ⟨e', he', ht'⟩
          rcases List.mem_cons.mp he' with rfl | he'
          · exact absurd ht' ht
          · exact ih (devStep s e) h1' h2' ⟨e', he', ht'⟩
    intro evs hex
    obtain ⟨h1, _⟩ := runDevEvents_inv evs hinv0 hready0
    rw [h1, key evs initialDevWatchState hinv0 hready0 hex]
    rfl

/-- Claim C2, witness: with a readiness chunk followed by the fallback
timer and a second matching chunk, the helper is spawned exactly once. -/
theorem claim_C2_witness :
    (runDevEvents initialDevWatchState
      [DevEvent.data ("Convex functions ready").data, DevEvent.timer,
        DevEvent.data ("convex FUNCTIONS ready").data]).spawnCount = 1 :=
  claim_C2_latch.2.2.2
    [DevEvent.data ("Convex functions ready").data, DevEvent.timer,
      DevEvent.data ("convex FUNCTIONS ready").data]
    ⟨DevEvent.timer, by simp, rfl⟩

/-- Claim C1: evaluation of the coordinator's wait-and-exit tail at the
failing scenario. When the Convex backend exits with code 1 while Vite is
still running, cleanExit does SIGINT the remaining Vite process, but main
resolves without recording the child's exit code and the coordinator
process exits with status 0, not 1 — contradicting the spec (and the
code's own comment at dev.mjs line 276, "then exit with that code"). -/
theorem claim_C1_exit_code_bug :
    (runMainWait [(DevChild.convex, 1)]).viteSigints = 1 ∧
    (runMainWait [(DevChild.convex, 1)]).finished = true ∧
    coordinatorExitCode [(DevChild.convex, 1)] = some 0 ∧
    coordinatorExitCode [(DevChild.convex, 1)] ≠ some 1 := by
  decide

theorem findPortLoop_first_free (bind : Nat → String → BindResult)
    (osPort startPort : Nat) :
    ∀ (fuel i k : Nat), k < fuel →
      (∀ j, j < k → isFree bind (startPort + (i + j)) = false) →
      isFree bind (startPort + (i + k)) = true →
      findPortLoop bind osPort startPort fuel i = startPort + (i + k) := by
  intro fuel
  induction fuel with
  | zero => intro i k hk; omega
  | succ fuel ih =>
    intro i k hk hocc hfree
    cases k with
    | zero =>
      rw [findPortLoop, if_pos (by simpa using hfree)]
      simp
    | succ k =>
      have h0 : isFree bind (startPort + i) = false := by
        have := hocc 0 (by omega)
        simpa using this
      rw [findPortLoop, if_neg (by simp [h0])]
      have := ih (i + 1) k (by omega)
        (fun j hj => by
          have := hocc (j + 1) (by omega)
          rw [show startPort + (i + 1 + j) = startPort + (i + (j + 1)) by omega]
          exact this)
        (by rw [show startPort + (i + 1 + k) = startPort + (i + (k + 1)) by omega]
            exact hfree)
      rw [this]
      congr 1
      omega

theorem findPortLoop_exhaust (bind : Nat → String → BindResult)
    (osPort startPort : Nat) :
    ∀ (fuel i : Nat),
      (∀ j, j < fuel → isFree bind (startPort + (i + j)) = false) →
      findPortLoop bind osPort startPort fuel i =
        (if isFree bind osPort then osPort else osPort + 1) := by
  intro fuel
  induction fuel with
  | zero => intro i _; rfl
  | succ fuel ih =>
    intro i hocc
    have h0 : isFree bind (startPort + i) = false := by
      have := hocc 0 (by omega)
      simpa using this
    rw [findPortLoop, if_neg (by simp [h0])]
    exact ih (i + 1) (fun j hj => by
      have := hocc (j + 1) (by omega)
      rw [show startPort + (i + 1 + j) = startPort + (i + (j + 1)) by omega]
      exact this)

/-- Claim C6: for every start port and every k below maxAttempts, if the
ports start..start+k-1 are occupied (some checked loopback bind reports
them in use) and start+k is free, findAvailablePort returns start+k, the
first free candidate; and when all maxAttempts candidates are occupied it
falls back to the OS-assigned ephemeral port, validated the same way,
returning osPort+1 if even that validation fails. -/
theorem claim_C6_port_allocation (bind : Nat → String → BindResult)
    (osPort startPort maxAttempts : Nat) :
    (∀ k, k < maxAttempts →
      (∀ j, j < k → isFree bind (startPort + j) = false) →
      isFree bind (startPort + k) = true →
      findAvailablePort bind osPort startPort maxAttempts = startPort + k) ∧
    ((∀ j, j < maxAttempts → isFree bind (startPort + j) = false) →
      findAvailablePort bind osPort startPort maxAttempts =
        (if isFree bind osPort then osPort else osPort + 1)) := by
  constructor
  · intro k hk hocc hfree
    rw [findAvailablePort]
    have := findPortLoop_first_free bind osPort startPort maxAttempts 0 k hk
      (fun j hj => by simpa using hocc j hj) (by simpa using hfree)
    rw [this]
    simp
  · intro hocc
    rw [findAvailablePort]
    exact findPortLoop_exhaust bind osPort startPort maxAttempts 0
      (fun j hj => by simpa using hocc j hj)

/-- Claim C6, witness: with ports 3000 and 3001 in use and 3002 free, the
allocator returns 3002; and with every candidate of a 3-attempt scan in
use, it falls back to the validated OS-assigned port. -/
theorem claim_C6_witness :
    findAvailablePort
      (fun p _ => if p = 3000 ∨ p = 3001 then BindResult.inUse else BindResult.ok)
      49152 3000 50 = 3002 ∧
    findAvailablePort (fun _ _ => BindResult.inUse) 49152 3000 3 = 49153 := by
  constructor
  · exact (claim_C6_port_allocation
      (fun p _ => if p = 3000 ∨ p = 3001 then BindResult.inUse else BindResult.ok)
      49152 3000 50).1 2 (by decide) (by decide) (by decide)
  · have := (claim_C6_port_allocation (fun _ _ => BindResult.inUse) 49152 3000 3).2
      (by decide)
    rw [this]
    decide

theorem spawnEnsurerOnce_ready (s : DevWatchState) :
    (spawnEnsurerOnce s).convexReady = s.convexReady := by
  rw [spawnEnsurerOnce]
  split <;> rfl

theorem handleConvexData_ready (s : DevWatchState) (text : List Char) :
    (handleConvexData s text).convexReady = (s.convexReady || readyTest text) := by
  rw [handleConvexData]
  cases hr : s.convexReady <;> cases ht : readyTest text <;>
    simp [hr, ht, spawnEnsurerOnce_ready]

theorem runDevEvents_data_ready (cs : List (List Char)) : ∀ s : DevWatchState,
    (runDevEvents s (cs.map DevEvent.data)).convexReady =
      (s.convexReady || cs.any readyTest) := by
  induction cs with
  | nil => intro s; simp [runDevEvents]
  | cons c cs ih =>
    intro s
    rw [List.map_cons, runDevEvents_cons, ih]
    show ((handleConvexData s c).convexReady || _) = _
    rw [handleConvexData_ready]
    simp [Bool.or_assoc]

theorem lcontains_sandwich (u p w : List Char) : lcontains p (u ++ p ++ w) = true := by
  induction u with
  | nil =>
    show lcontains p (p ++ w) = true
    cases p with
    | nil =>
      cases w with
      | nil => rfl
      | cons c rest => simp [lcontains, lstarts]
    | cons q qs =>
      rw [List.cons_append]
      show (lstarts (q :: (qs ++ w)) (q :: qs) || _) = true
      rw [show q :: (qs ++ w) = (q :: qs) ++ w from rfl, lstarts_self_append]
      rfl
  | cons x u' ih =>
    rw [List.cons_append, List.cons_append]
    show (lstarts _ p || lcontains p (u' ++ p ++ w)) = true
    rw [ih, Bool.or_true]

/-- Claim C4, counterexample: the cited readiness handling (dev.mjs
handleConvexData, lines 250-258) tests the marker regex against each raw
chunk, with no line buffering and no escape-sequence stripping, so it is
not chunking-invariant: the marker delivered whole sets convexReady, but
the same bytes split mid-word across two chunks never do, and a marker
with an ANSI escape sequence embedded inside the phrase is not matched
either. -/
theorem claim_C4_counterexample :
    (runDevEvents initialDevWatchState
      [DevEvent.data ("Convex fun").data,
        DevEvent.data ("ctions ready").data]).convexReady = false ∧
    (runDevEvents initialDevWatchState
      [DevEvent.data ("Convex functions ready").data]).convexReady = true ∧
    (runDevEvents initialDevWatchState
      [DevEvent.data ("Convex \x1b[1mfunctions ready").data]).convexReady = false := by
  refine ⟨by decide, by decide, by decide⟩

/-- Claim C4 (amended): what the cited detector does guarantee. The
readiness signal after any sequence of stdout chunks is exactly "some
single chunk matches /Convex functions ready/i": readiness depends only on
the per-chunk matches (never on how matching text is distributed across
chunk boundaries within a chunk sequence whose per-chunk matches agree),
and since the test is a case-insensitive substring search, a chunk that
carries the marker intact still matches whatever other bytes — including
escape sequences outside the marker — surround it. A marker split across
chunks, or interrupted inside by an escape sequence, is missed (the
fallback timer still triggers the env-sync action, but log-based readiness
is never signalled). -/
theorem claim_C4_per_chunk :
    (∀ (s : DevWatchState) (cs : List (List Char)),
      (runDevEvents s (cs.map DevEvent.data)).convexReady =
        (s.convexReady || cs.any readyTest)) ∧
    (∀ cs : List (List Char),
      (runDevEvents initialDevWatchState (cs.map DevEvent.data)).convexReady =
        cs.any readyTest) ∧
    (∀ u w : List Char,
      readyTest (u ++ ("Convex functions ready").data ++ w) = true) := by
  refine ⟨fun s cs => runDevEvents_data_ready cs s, ?_, ?_⟩
  · intro cs
    rw [runDevEvents_data_ready]
    rfl
  · intro u w
    simp only [readyTest, containsCI, toLowerL, List.map_append]
    exact lcontains_sandwich _ _ _

/-- Claim C4, witness: the per-chunk characterization applied at a
two-chunk stream whose second chunk carries the marker (in different
case), and the intact-marker conjunct applied with surrounding text. -/
theorem claim_C4_witness :
    (runDevEvents initialDevWatchState
      ([("noise").data, ("log: Convex FUNCTIONS ready.").data].map
        DevEvent.data)).convexReady =
      [("noise").data, ("log: Convex FUNCTIONS ready.").data].any readyTest ∧
    [("noise").data, ("log: Convex FUNCTIONS ready.").data].any readyTest = true ∧
    readyTest (("log: ").data ++ ("Convex functions ready").data ++
      (" (tail)").data) = true :=
  ⟨claim_C4_per_chunk.2.1 _, by decide, claim_C4_per_chunk.2.2 _ _⟩

/-- Claim C3, counterexample: a store that reports both variables absent
on every read while every `convex env set` invocation exits 0. After 7
ticks — more than either retry ceiling in the repository — the helper of
ensure-convex-env.mjs is still polling (the loop has not stopped), has
invoked the set command 14 times, and has produced no SetFailed: the tick
loop has no failing outcome at all, contradicting the claim's "eventually
fails with SetFailed after maxAttempts rather than retrying forever". -/
theorem claim_C3_counterexample :
    ticksRun (fun _ =>
      { siteGet := ⟨0, [], []⟩, secretGet := ⟨0, [], []⟩,
        siteSet := fun _ => ⟨0, [], []⟩, secretSet := fun _ => ⟨0, [], []⟩,
        siteCheck := ⟨0, [], []⟩, secretCheck := ⟨0, [], []⟩ }) 7 =
      (false, 14) := by
  decide

/-- Claim C3 (amended): the retry behaviour of the cited setVar and tick.
setVar succeeds after exactly n+1 set invocations when the first n < 5
attempts fail with race-detected output and attempt n exits 0 (a zero exit
code is trusted at once, with no re-check of the store); five race-failing
attempts exhaust MAX_TRIES and return failure, and a nonzero exit without
race output fails immediately, surfacing the captured output. The
surrounding tick loop, however, never produces SetFailed: whenever the
verification reads keep reporting a variable absent, the loop is still
running after any number of ticks. -/
theorem claim_C3_retry :
    (∀ (world : Nat → CliResult) (n : Nat), n < 5 →
      (∀ i, i < n → ¬(world i).code = 0 ∧
        isRaceOutput ((world i).stdout ++ (world i).stderr) = true) →
      (world n).code = 0 →
      setVarModel world = (n + 1, true)) ∧
    (∀ world : Nat → CliResult,
      (∀ i, i < 5 → ¬(world i).code = 0 ∧
        isRaceOutput ((world i).stdout ++ (world i).stderr) = true) →
      setVarModel world = (5, false)) ∧
    (∀ world : Nat → CliResult,
      ¬(world 0).code = 0 →
      isRaceOutput ((world 0).stdout ++ (world 0).stderr) = false →
      setVarModel world = (1, false)) ∧
    (∀ (ws : Nat → TickWorld) (n : Nat),
      (∀ i, i < n →
        (checkPresent (ws i).siteCheck && checkPresent (ws i).secretCheck) = false) →
      (ticksRun ws n).1 = false) := by
  refine ⟨?_, ?_, ?_, ?_⟩
  · intro world n hn h1 h2
    interval_cases n
    · simp [setVarModel, setVarLoop, h2]
    · obtain ⟨e0, t0⟩ := h1 0 (by omega)
      simp [setVarModel, setVarLoop, e0, t0, h2]
    · obtain ⟨e0, t0⟩ := h1 0 (by omega)
      obtain ⟨e1, t1⟩ := h1 1 (by omega)
      simp [setVarModel, setVarLoop, e0, t0, e1, t1, h2]
    · obtain ⟨e0, t0⟩ := h1 0 (by omega)
      obtain ⟨e1, t1⟩ := h1 1 (by omega)
      obtain ⟨e2, t2⟩ := h1 2 (by omega)
      simp [setVarModel, setVarLoop, e0, t0, e1, t1, e2, t2, h2]
    · obtain ⟨e0, t0⟩ := h1 0 (by omega)
      obtain ⟨e1, t1⟩ := h1 1 (by omega)
      obtain ⟨e2, t2⟩ := h1 2 (by omega)
      obtain ⟨e3, t3⟩ := h1 3 (by omega)
      simp [setVarModel, setVarLoop, e0, t0, e1, t1, e2, t2, e3, t3, h2]
  · intro world h1
    obtain ⟨e0, t0⟩ := h1 0 (by omega)
    obtain ⟨e1, t1⟩ := h1 1 (by omega)
    obtain ⟨e2, t2⟩ := h1 2 (by omega)
    obtain ⟨e3, t3⟩ := h1 3 (by omega)
    obtain ⟨e4, t4⟩ := h1 4 (by omega)
    simp [setVarModel, setVarLoop, e0, t0, e1, t1, e2, t2, e3, t3, e4, t4]
  · intro world h0 hr
    simp [setVarModel, setVarLoop, h0, hr]
  · intro ws n
    induction n with
    | zero => intro _; rfl
    | succ n ih =>
      intro h
      show (ticksRun ws (n + 1)).1 = false
      rw [ticksRun]
      rw [ih (fun i hi => h i (by omega))]
      show (tickStep (ws n)).1 = false
      rw [tickStep]
      exact h n (by omega)

/-- Claim C3, witness: the amended statement applied at a world whose
first set attempt fails with a race message and whose second exits 0 (two
invocations, success), and at a three-tick stream whose verification reads
never show both variables present (the loop is still polling). -/
theorem claim_C3_witness :
    setVarModel (fun i =>
      if i = 0 then ⟨1, ("RaceDetected, retrying push").data, []⟩
      else ⟨0, ("Success").data, []⟩) = (2, true) ∧
    (ticksRun (fun _ =>
      { siteGet := ⟨0, ("http://localhost:3000").data, []⟩,
        secretGet := ⟨0, ("s3cret").data, []⟩,
        siteSet := fun _ => ⟨0, [], []⟩, secretSet := fun _ => ⟨0, [], []⟩,
        siteCheck := ⟨1, [], []⟩, secretCheck := ⟨0, [], []⟩ }) 3).1 = false :=
  ⟨claim_C3_retry.1 _ 1 (by decide) (by decide) (by decide),
    claim_C3_retry.2.2.2 _ 3 (by decide)⟩

/-- Claim C9: the per-variable set of the cited tick is a no-op when the
read command reports the variable present. Whenever the initial
`convex env get` for a variable does not look unset (exit code 0, nonempty
trimmed output, and no match of /not set|not found|error/i), the tick
invokes no set command for that variable; and over any number of ticks in
which both reads report their variable present, the loop performs zero set
invocations in total — a value once confirmed present is never
overwritten by this subsystem. -/
theorem claim_C9_get_noop :
    (∀ w : TickWorld, getLooksUnset w.siteGet = false → tickSiteSetCalls w = 0) ∧
    (∀ w : TickWorld, getLooksUnset w.secretGet = false → tickSecretSetCalls w = 0) ∧
    (∀ (ws : Nat → TickWorld) (n : Nat),
      (∀ i, i < n → getLooksUnset (ws i).siteGet = false ∧
        getLooksUnset (ws i).secretGet = false) →
      (ticksRun ws n).2 = 0) := by
  refine ⟨?_, ?_, ?_⟩
  · intro w h
    rw [tickSiteSetCalls, if_neg (by simp [h])]
  · intro w h
    rw [tickSecretSetCalls, if_neg (by simp [h])]
  · intro ws n
    induction n with
    | zero => intro _; rfl
    | succ n ih =>
      intro h
      show (ticksRun ws (n + 1)).2 = 0
      rw [ticksRun]
      split
      · exact ih (fun i hi => h i (by omega))
      · obtain ⟨hs, hc⟩ := h n (by omega)
        show (ticksRun ws n).2 +
          (tickSiteSetCalls (ws n) + tickSecretSetCalls (ws n)) = 0
        rw [tickSiteSetCalls, if_neg (by simp [hs]),
          tickSecretSetCalls, if_neg (by simp [hc]),
          ih (fun i hi => h i (by omega))]

/-- Claim C9, witness: with both variables reporting present (exit 0,
nonempty values free of the not-set heuristics), a tick makes zero set
invocations for each variable, and three such ticks make zero in total. -/
theorem claim_C9_witness :
    tickSiteSetCalls
      { siteGet := ⟨0, ("http://localhost:3000").data, []⟩,
        secretGet := ⟨0, ("s3cret").data, []⟩,
        siteSet := fun _ => ⟨0, [], []⟩, secretSet := fun _ => ⟨0, [], []⟩,
        siteCheck := ⟨0, ("http://localhost:3000").data, []⟩,
        secretCheck := ⟨0, ("s3cret").data, []⟩ } = 0 ∧
    (ticksRun (fun _ =>
      { siteGet := ⟨0, ("http://localhost:3000").data, []⟩,
        secretGet := ⟨0, ("s3cret").data, []⟩,
        siteSet := fun _ => ⟨0, [], []⟩, secretSet := fun _ => ⟨0, [], []⟩,
        siteCheck := ⟨0, ("http://localhost:3000").data, []⟩,
        secretCheck := ⟨0, ("s3cret").data, []⟩ }) 3).2 = 0 :=
  ⟨claim_C9_get_noop.1 _ (by decide), claim_C9_get_noop.2.2 _ 3 (by decide)⟩

/-- Claim C5, counterexample: two failures of the claim at the cited
dev.mjs code. At the explicit port 65535 the WHATWG port setter silently
ignores the out-of-range value 65536, so the derivation returns the input
URL unchanged instead of a port-P+1 URL; and an unparseable RPC URL yields
the fixed fallback string http://127.0.0.1:3211 from the catch, not an
absent value (the cited computation has no absent outcome at all). -/
theorem claim_C5_counterexample :
    devConvexSiteUrl none ("http://localhost:65535").data =
      ("http://localhost:65535").data ∧
    ¬ devConvexSiteUrl none ("http://localhost:65535").data =
      ("http://localhost:65536").data ∧
    devConvexSiteUrl none ("not a url").data = ("http://127.0.0.1:3211").data := by
  refine ⟨by decide, by decide, by decide⟩

/-- Claim C5 (amended): the derivation of the cited dev.mjs code. A
CONVEX_SITE_URL override is returned unchanged. For a URL the parser
round-trips: an explicit port P with P+1 a valid non-default port is
rewritten to P+1 (scheme, host and path preserved, trailing slash
dropped); without an explicit port, the scheme default (80/443) serves as
P. An unparseable URL yields the fixed fallback http://127.0.0.1:3211
rather than raising — and rather than the absent value the original claim
asserts. (At P = 65535 the port setter ignores 65536 and the URL is
returned unchanged: see the counterexample.) -/
theorem claim_C5_amended :
    (∀ v rpc : List Char, devConvexSiteUrl (some v) rpc = v) ∧
    (∀ (u : UrlM) (P : Nat),
      parseUrl? (serializeUrl u) = some u →
      u.port = some P →
      P + 1 ≤ 65535 →
      ¬ P + 1 = getDefaultPort u.secure →
      devConvexSiteUrl none (serializeUrl u) =
        dropTrailingSlash (serializeUrl { u with port := some (P + 1) })) ∧
    (∀ u : UrlM,
      parseUrl? (serializeUrl u) = some u →
      u.port = none →
      devConvexSiteUrl none (serializeUrl u) =
        dropTrailingSlash (serializeUrl
          { u with port := some (getDefaultPort u.secure + 1) })) ∧
    (∀ s : List Char, parseUrl? s = none →
      devConvexSiteUrl none s = ("http://127.0.0.1:3211").data) := by
  refine ⟨fun v rpc => rfl, ?_, ?_, ?_⟩
  · intro u P hparse hport hle hdef
    rw [devConvexSiteUrl, hparse]
    show dropTrailingSlash (serializeUrl (setUrlPort u
      ((match u.port with
        | some p => p
        | none => getDefaultPort u.secure) + 1))) = _
    rw [hport]
    show dropTrailingSlash (serializeUrl (setUrlPort u (P + 1))) = _
    rw [setUrlPort, if_neg (by omega), if_neg hdef]
  · intro u hparse hport
    rw [devConvexSiteUrl, hparse]
    show dropTrailingSlash (serializeUrl (setUrlPort u
      ((match u.port with
        | some p => p
        | none => getDefaultPort u.secure) + 1))) = _
    rw [hport]
    show dropTrailingSlash (serializeUrl
      (setUrlPort u (getDefaultPort u.secure + 1))) = _
    have h1 : ¬ 65535 < getDefaultPort u.secure + 1 := by
      cases u.secure <;> simp [getDefaultPort]
    have h2 : ¬ getDefaultPort u.secure + 1 = getDefaultPort u.secure := by omega
    rw [setUrlPort, if_neg h1, if_neg h2]
  · intro s h
    rw [devConvexSiteUrl, h]

/-- Claim C5, witness: the amended statement applied at
http://localhost:3212 (explicit port 3212, rewritten to 3213). -/
theorem claim_C5_witness :
    parseUrl? (serializeUrl ⟨false, ("localhost").data, some 3212, ("/").data⟩) =
      some ⟨false, ("localhost").data, some 3212, ("/").data⟩ ∧
    devConvexSiteUrl none
        (serializeUrl ⟨false, ("localhost").data, some 3212, ("/").data⟩) =
      dropTrailingSlash
        (serializeUrl ⟨false, ("localhost").data, some 3213, ("/").data⟩) :=
  ⟨by decide,
    claim_C5_amended.2.1 ⟨false, ("localhost").data, some 3212, ("/").data⟩ 3212
      (by decide) rfl (by decide) (by decide)⟩

end Tenex
